import Mathlib

/-!
Verification development for the source-introspection core of `optimism.py`
(the expectation-testing engine of the Wordle repository).  The Python
functions under study are shallowly embedded as executable Lean functions
over `List Char` source text and an inductive model of the Python AST.
Python generators become functions returning lists, the process-global
`COMPLETED_PER_LINE` dictionary becomes an explicitly threaded counter
state, and writes to `sys.stderr` become an explicit list of warnings.
-/

namespace Optimism

/-- Source text: a Python string modelled as a list of characters, so that
Python string indices become list indices. -/
abbrev Txt := List Char

/-- The single-quote character (written via its code point). -/
def sq : Char := Char.ofNat 39

/-- The double-quote character. -/
def dq : Char := Char.ofNat 34

/-- The backslash character. -/
def bs : Char := Char.ofNat 92

/-- The opening curly brace character. -/
def obr : Char := Char.ofNat 123

/-- The closing curly brace character. -/
def cbr : Char := Char.ofNat 125

/-- State of the `quote` variable in `unquoted_enumerate`
(optimism.py lines 2477-2537): Python keeps it as `None`, a one-character
string (an open single quote) or a three-character string (an open triple
quote); the `Option` wrapper supplies the `None` case. -/
inductive QuoteState where
  | single (c : Char)
  | triple (c : Char)
deriving DecidableEq, Repr

/-- Loop body of `unquoted_enumerate` (optimism.py lines 2484-2537),
translated branch by branch.  Each loop iteration advances the scan index
by 1, 2 or 3, so the loop is driven by a fuel argument; the wrapper below
supplies enough fuel for the scan to run to the end of the string. -/
def uqeFrom (src : Txt) : Nat → Option QuoteState → Nat → List (Nat × Char)
  | 0, _, _ => []
  | fuel + 1, quote, i =>
    if h : i < src.length then
      let ch := src.get ⟨i, h⟩
      -- skip escaped characters in quoted strings
      if quote.isSome ∧ ch = bs then
        uqeFrom src fuel quote (i + 2)
      -- handle quoted strings
      else if ch = dq ∨ ch = sq then
        if quote = some (.single ch) then
          -- single end quote
          uqeFrom src fuel none (i + 1)
        else if src.get? (i + 1) = some ch ∧ src.get? (i + 2) = some ch then
          -- the slice src[at:at+3] is a triple quote
          if quote = some (.triple ch) ∨ quote = some (.single ch) then
            -- ending triple-quote, or matching triple-quote at the end of
            -- a single-quoted string
            uqeFrom src fuel none (i + 3)
          else if quote.isSome then
            -- triple quote of the other kind inside a quoted string
            uqeFrom src fuel quote (i + 3)
          else
            uqeFrom src fuel (some (.triple ch)) (i + 3)
        else if quote = none then
          -- opening single quote
          uqeFrom src fuel (some (.single ch)) (i + 1)
        else
          -- single quote inside other quotes
          uqeFrom src fuel quote (i + 1)
      -- non-quote characters in quoted strings
      else if quote.isSome then
        uqeFrom src fuel quote (i + 1)
      else
        (i, ch) :: uqeFrom src fuel none (i + 1)
    else []

/-- `unquoted_enumerate(src, start_index)` (optimism.py lines 2477-2537):
yields (index, character) pairs from the code string, skipping quotation
marks and the strings they delimit, including triple quotes, and
respecting backslash escapes within strings. -/
def unquoted_enumerate (src : Txt) (start_index : Nat) : List (Nat × Char) :=
  uqeFrom src (src.length + 1 - start_index) none start_index

/-- `find_identifier_end` loop (optimism.py lines 2441-2452), fuelled. -/
def fieLoop (code : Txt) : Nat → Nat → Nat
  | 0, i => i - 1
  | fuel + 1, i =>
    if h : i < code.length then
      let ch := code.get ⟨i, h⟩
      if ¬ ch.isAlpha ∧ ¬ ch.isDigit ∧ ch ≠ '_' then i - 1
      else fieLoop code fuel (i + 1)
    else i - 1

/-- `find_identifier_end(code, start_index)` (optimism.py lines 2441-2452):
given an index which is the start of an identifier, returns the index of
the end of that identifier. -/
def find_identifier_end (code : Txt) (start_index : Nat) : Nat :=
  fieLoop code (code.length + 1) (start_index + 1)

/-- Loop of `find_nth_attribute_period` (optimism.py lines 2561-2587) over
the pairs produced by `unquoted_enumerate`: counts unquoted periods that
are not part of an ellipsis, returning the index where the count runs out
(`n` decremented below zero in Python). -/
def fnapLoop (code : Txt) : List (Nat × Char) → Nat → Option Nat
  | [], _ => none
  | (i, ch) :: rest, n =>
    if ch = '.' then
      if (1 ≤ i ∧ code.get? (i - 1) = some '.') ∨ code.get? (i + 1) = some '.' then
        -- part of an ellipsis, so ignore it
        fnapLoop code rest n
      else if n = 0 then some i
      else fnapLoop code rest (n - 1)
    else fnapLoop code rest n

/-- `find_nth_attribute_period(code, start_index, n)` (optimism.py lines
2561-2587): finds the nth period (counting from zero) at or after the
start index which is used for attribute access: outside quoted strings
and not part of an ellipsis.  Returns `none` if there are not enough
periods in the code. -/
def find_nth_attribute_period (code : Txt) (start_index n : Nat) : Option Nat :=
  fnapLoop code (unquoted_enumerate code start_index) n

/-- Loop of `find_closing_item` (optimism.py lines 2622-2641) over the
pairs produced by `unquoted_enumerate`: tracks the nesting level, which
starts at 1 and never drops below 1 inside the loop; reaching a closing
delimiter at level 1 is Python's `level < 1` break followed by
`return at`. -/
def fciLoop (od cd : Char) : List (Nat × Char) → Nat → Option Nat
  | [], _ => none
  | (i, ch) :: rest, level =>
    if ch = od then fciLoop od cd rest (level + 1)
    else if ch = cd then
      if level ≤ 1 then some i
      else fciLoop od cd rest (level - 1)
    else fciLoop od cd rest level

/-- `find_closing_item(code, start_index, openclose)` (optimism.py lines
2611-2641): given an index where there is an open delimiter and the pair
of opening and closing delimiters of interest, returns the index of the
matching closing delimiter, or `none` if the opening delimiter is
unclosed. -/
def find_closing_item (code : Txt) (start_index : Nat) (openclose : Char × Char) :
    Option Nat :=
  fciLoop openclose.1 openclose.2 (unquoted_enumerate code (start_index + 1)) 1

/-- Loop of `find_unbracketed_comma` (optimism.py lines 2683-2710) over
the pairs produced by `unquoted_enumerate`; `seeking` is the stack of
closing delimiters still being sought (Python appends to and pops from
the end of a list; here the head of the list is the top of the stack). -/
def fucLoop : List (Nat × Char) → List Char → Option Nat
  | [], _ => none
  | (i, ch) :: rest, seeking =>
    -- non-quoted open delimiter
    if ch = '(' then fucLoop rest (')' :: seeking)
    else if ch = '[' then fucLoop rest (']' :: seeking)
    else if ch = obr then fucLoop rest (cbr :: seeking)
    -- non-quoted matching close delimiter
    else if 0 < seeking.length ∧ seeking.head? = some ch then fucLoop rest seeking.tail
    -- non-quoted non-matching close delimiter
    else if ch = ')' ∨ ch = ']' ∨ ch = cbr then none
    -- a non-quoted comma
    else if ch = ',' ∧ seeking = [] then some i
    else fucLoop rest seeking

/-- `find_unbracketed_comma(code, start_index)` (optimism.py lines
2673-2710): finds the next comma at or after the start index which is not
inside brackets opened at or after that index and not in a quoted string;
stops and returns `none` upon an unmatched closing bracket. -/
def find_unbracketed_comma (code : Txt) (start_index : Nat) : Option Nat :=
  fucLoop (unquoted_enumerate code start_index) []

/-- Python `str.splitlines` restricted to newline-only line breaks:
helper splitting at every newline character (keeping a final empty
piece). -/
def splitAtNl : Txt → List Txt
  | [] => [[]]
  | c :: rest =>
    if c = '\n' then [] :: splitAtNl rest
    else
      match splitAtNl rest with
      | [] => [[c]]
      | l :: ls => (c :: l) :: ls

/-- Python `str.splitlines` for newline-only text: a trailing newline does
not produce a final empty line, and the empty string has no lines. -/
def splitLines (src : Txt) : List Txt :=
  match src with
  | [] => []
  | _ =>
    let parts := splitAtNl src
    if src.getLast? = some '\n' then parts.dropLast else parts

/-- `get_src_index(src, lineno, col_offset)` (optimism.py lines
2420-2427): turns a line number and column offset into an absolute index
into the source string, assuming length-1 newlines. -/
def get_src_index (src : Txt) (lineno col_offset : Nat) : Nat :=
  let lines := splitLines src
  let above := lines.take (lineno - 1)
  (above.map List.length).sum + above.length + col_offset

/-- The quoting-interplay fixture from the repository's own test
`test_unquoted_enumerate` (optimism.py line 2551), spelled as an explicit
character list. -/
def rqs : Txt :=
  ['a', sq, 'b', sq, sq, sq, 'c', dq, dq, dq, sq, sq, sq, dq, 'd', dq,
   sq, sq, sq, sq, dq, dq, dq, 'e', sq, sq, sq, dq, dq, dq, 'f', dq, dq,
   dq, sq, sq, sq]

example : unquoted_enumerate rqs 0 = [(0, 'a'), (6, 'c'), (23, 'e')] := by decide

example : unquoted_enumerate rqs 6 = [(6, 'c'), (23, 'e')] := by decide

example :
    unquoted_enumerate ['a', sq, bs, sq, 'b', bs, sq, sq, 'c'] 0 =
      [(0, 'a'), (8, 'c')] := by decide

example : unquoted_enumerate [sq, dq, 'a', sq, 'b', dq] 0 = [(4, 'b')] := by decide

example : find_identifier_end "abc.xyz".toList 0 = 2 := by decide

example : find_identifier_end "abc.xyz".toList 4 = 6 := by decide

example : find_identifier_end "abc_xyz123".toList 0 = 9 := by decide

example : find_nth_attribute_period "a.b.cde.f".toList 0 2 = some 7 := by decide

example : find_nth_attribute_period "a.b".toList 0 1 = none := by decide

example : find_closing_item "(())".toList 0 ('(', ')') = some 3 := by decide

example : find_closing_item "(()".toList 0 ('(', ')') = none := by decide

example :
    find_closing_item [dq, 'a', 'b', 'c', '(', dq, ' ', '+', ' ', '(',
      sq, sq, sq, 'd', 'e', 'f', sq, sq, sq, ')'] 9 ('(', ')') = some 19 := by
  decide

example : find_unbracketed_comma "((,),),".toList 0 = some 6 := by decide

example : find_unbracketed_comma "((,),)".toList 0 = none := by decide

example :
    find_unbracketed_comma [dq, ',', ',', dq, ',', dq, ',', dq] 0 = some 4 := by
  decide

example : get_src_index "a\nb\nc".toList 3 0 = 4 := by decide

/-! ## Properties of the scanner (claims C5 and C7) -/

/-- Every pair produced by the `unquoted_enumerate` loop lies at or after
the scan position and reports the character actually stored there. -/
theorem uqeFrom_mem (src : Txt) (fuel : Nat) :
    ∀ (q : Option QuoteState) (i : Nat) (p : Nat × Char),
      p ∈ uqeFrom src fuel q i → i ≤ p.1 ∧ src.get? p.1 = some p.2 := by
  induction fuel with
  | zero => intro q i p hp; simp [uqeFrom] at hp
  | succ f ih =>
    intro q i p hp
    rw [uqeFrom] at hp
    by_cases h : i < src.length
    · simp only [dif_pos h] at hp
      repeat' split at hp
      all_goals
        first
        | (obtain ⟨h1, h2⟩ := ih _ _ _ hp; exact ⟨by omega, h2⟩)
        | (rcases List.mem_cons.mp hp with h0 | hp'
           · subst h0
             exact ⟨le_refl _, by simp [List.get?_eq_get h]⟩
           · obtain ⟨h1, h2⟩ := ih _ _ _ hp'
             exact ⟨by omega, h2⟩)
    · simp [dif_neg h] at hp

/-- Is a character one of Python's two quote characters? -/
def isQuoteChar (c : Char) : Bool := c = dq || c = sq

/-- Modelled from the spec: one skipped unit inside a quoted string
opened with quote character `q` (`tr` is true inside a triple-quoted
string): a backslash-escaped character skipped as a unit, a triple
quote of the other kind skipped as a unit, a lone quote character that
does not end the string (inside a single-quoted string the matching
quote always ends it, so a lone `q` occurs only inside triple quotes),
or any other single character. -/
inductive SpanUnit (q : Char) (tr : Bool) : Txt → Prop where
  | esc (c : Char) : SpanUnit q tr [bs, c]
  | otherTriple (p : Char) : isQuoteChar p = true → p ≠ q →
      SpanUnit q tr [p, p, p]
  | loneQuote (p : Char) : isQuoteChar p = true → (p = q → tr = true) →
      SpanUnit q tr [p]
  | plainChar (c : Char) : isQuoteChar c = false → c ≠ bs →
      SpanUnit q tr [c]

/-- Modelled from the spec: a complete quoted-string span — an opening
single, double or triple quote, a body of skipped units, and the
matching closing delimiter. -/
inductive QuotedSpan : Txt → Prop where
  | single (q : Char) (units : List Txt) :
      isQuoteChar q = true → (∀ u ∈ units, SpanUnit q false u) →
      QuotedSpan (q :: units.join ++ [q])
  | triple (q : Char) (units : List Txt) :
      isQuoteChar q = true → (∀ u ∈ units, SpanUnit q true u) →
      QuotedSpan (q :: q :: q :: units.join ++ [q, q, q])

/-- Modelled from the spec: a quoted-string span left unterminated by
the end of the source text (the scanner skips everything to the end; a
final backslash is consumed together with the string end). -/
inductive OpenSpan : Txt → Prop where
  | single (q : Char) (units : List Txt) (tail : Txt) :
      isQuoteChar q = true → (∀ u ∈ units, SpanUnit q false u) →
      (tail = [] ∨ tail = [bs]) →
      OpenSpan (q :: units.join ++ tail)
  | triple (q : Char) (units : List Txt) (tail : Txt) :
      isQuoteChar q = true → (∀ u ∈ units, SpanUnit q true u) →
      (tail = [] ∨ tail = [bs]) →
      OpenSpan (q :: q :: q :: units.join ++ tail)

/-- A segment of scanned source: a single unquoted character (yielded
by the scanner) or a quoted-string span (skipped by the scanner). -/
inductive Seg where
  | plain (c : Char)
  | span (t : Txt)

/-- The source text a segment covers. -/
def segText : Seg → Txt
  | .plain c => [c]
  | .span t => t

/-- The pairs a segment list yields when laid out from an absolute
index: exactly the plain characters, at their indices. -/
def plainPairs : Nat → List Seg → List (Nat × Char)
  | _, [] => []
  | i, .plain c :: rest => (i, c) :: plainPairs (i + 1) rest
  | i, .span t :: rest => plainPairs (i + t.length) rest

/-- Well-formed segment lists: plain characters are not quote
characters, spans are complete quoted-string spans, and only the final
segment may be an unterminated span. -/
inductive SegsWF : List Seg → Prop where
  | nil : SegsWF []
  | plain (c : Char) (rest : List Seg) : isQuoteChar c = false →
      SegsWF rest → SegsWF (.plain c :: rest)
  | closed (t : Txt) (rest : List Seg) : QuotedSpan t →
      SegsWF rest → SegsWF (.span t :: rest)
  | last (t : Txt) : OpenSpan t → SegsWF [.span t]

/-- The quote character of a quote state. -/
def stChar : QuoteState → Char
  | .single c => c
  | .triple c => c

/-- Is the quote state a triple quote? -/
def stTriple : QuoteState → Bool
  | .single _ => false
  | .triple _ => true

/-- The closing delimiter a quote state awaits. -/
def stCloser : QuoteState → Txt
  | .single c => [c]
  | .triple c => [c, c, c]

/-- Past the end of the text the scanner loop yields nothing, whatever
the fuel. -/
theorem uqeFrom_end (src : Txt) (f i : Nat) (q : Option QuoteState)
    (h : src.length ≤ i) : uqeFrom src f q i = [] := by
  cases f with
  | zero => rfl
  | succ a => rw [uqeFrom, dif_neg (by omega)]

/-- The scanner loop does not depend on the fuel once the fuel reaches
the end of the text. -/
theorem uqeFrom_fuel_irrelevant (src : Txt) :
    ∀ (f1 f2 i : Nat) (q : Option QuoteState),
      src.length ≤ i + f1 → src.length ≤ i + f2 →
      uqeFrom src f1 q i = uqeFrom src f2 q i := by
  intro f1
  induction f1 with
  | zero =>
    intro f2 i q h1 h2
    rw [uqeFrom_end src 0 i q (by omega), uqeFrom_end src f2 i q (by omega)]
  | succ a ih =>
    intro f2 i q h1 h2
    by_cases h : i < src.length
    · obtain ⟨b, rfl⟩ : ∃ b, f2 = b + 1 := ⟨f2 - 1, by omega⟩
      rw [uqeFrom, uqeFrom, dif_pos h, dif_pos h]
      by_cases c1 : q.isSome ∧ src.get ⟨i, h⟩ = bs
      · rw [if_pos c1, if_pos c1]
        exact ih b (i + 2) q (by omega) (by omega)
      · rw [if_neg c1, if_neg c1]
        by_cases c2 : src.get ⟨i, h⟩ = dq ∨ src.get ⟨i, h⟩ = sq
        · rw [if_pos c2, if_pos c2]
          by_cases c3 : q = some (.single (src.get ⟨i, h⟩))
          · rw [if_pos c3, if_pos c3]
            exact ih b (i + 1) none (by omega) (by omega)
          · rw [if_neg c3, if_neg c3]
            by_cases c4 : src.get? (i + 1) = some (src.get ⟨i, h⟩) ∧
                src.get? (i + 2) = some (src.get ⟨i, h⟩)
            · rw [if_pos c4, if_pos c4]
              by_cases c5 : q = some (.triple (src.get ⟨i, h⟩)) ∨
                  q = some (.single (src.get ⟨i, h⟩))
              · rw [if_pos c5, if_pos c5]
                exact ih b (i + 3) none (by omega) (by omega)
              · rw [if_neg c5, if_neg c5]
                by_cases c6 : q.isSome
                · rw [if_pos c6, if_pos c6]
                  exact ih b (i + 3) q (by omega) (by omega)
                · rw [if_neg c6, if_neg c6]
                  exact ih b (i + 3) _ (by omega) (by omega)
            · rw [if_neg c4, if_neg c4]
              by_cases c7 : q = none
              · rw [if_pos c7, if_pos c7]
                exact ih b (i + 1) _ (by omega) (by omega)
              · rw [if_neg c7, if_neg c7]
                exact ih b (i + 1) q (by omega) (by omega)
        · rw [if_neg c2, if_neg c2]
          by_cases c8 : q.isSome
          · rw [if_pos c8, if_pos c8]
            exact ih b (i + 1) q (by omega) (by omega)
          · rw [if_neg c8, if_neg c8]
            rw [ih b (i + 1) none (by omega) (by omega)]
    · rw [uqeFrom_end src _ i q (by omega), uqeFrom_end src _ i q (by omega)]

/-- The scanner run from position `i` in state `q` with the canonical
fuel; `unquoted_enumerate src i` is definitionally `uqeAt src none i`. -/
def uqeAt (src : Txt) (q : Option QuoteState) (i : Nat) : List (Nat × Char) :=
  uqeFrom src (src.length + 1 - i) q i

theorem uqeAt_stop (src : Txt) (q : Option QuoteState) (i : Nat)
    (h : src.length ≤ i) : uqeAt src q i = [] :=
  uqeFrom_end src _ i q h

/-- One scanner step at the canonical fuel, branch by branch. -/
theorem uqeAt_eq (src : Txt) (q : Option QuoteState) (i : Nat) :
    uqeAt src q i =
      if h : i < src.length then
        let ch := src.get ⟨i, h⟩
        if q.isSome ∧ ch = bs then uqeAt src q (i + 2)
        else if ch = dq ∨ ch = sq then
          if q = some (.single ch) then uqeAt src none (i + 1)
          else if src.get? (i + 1) = some ch ∧ src.get? (i + 2) = some ch then
            if q = some (.triple ch) ∨ q = some (.single ch) then
              uqeAt src none (i + 3)
            else if q.isSome then uqeAt src q (i + 3)
            else uqeAt src (some (.triple ch)) (i + 3)
          else if q = none then uqeAt src (some (.single ch)) (i + 1)
          else uqeAt src q (i + 1)
        else if q.isSome then uqeAt src q (i + 1)
        else (i, ch) :: uqeAt src none (i + 1)
      else [] := by
  by_cases h : i < src.length
  · rw [dif_pos h]
    obtain ⟨m, hm⟩ : ∃ m, src.length + 1 - i = m + 1 :=
      ⟨src.length - i, by omega⟩
    rw [uqeAt, hm, uqeFrom, dif_pos h]
    have hfi : ∀ (q2 : Option QuoteState) (k : Nat), 1 ≤ k →
        uqeFrom src m q2 (i + k) = uqeAt src q2 (i + k) := by
      intro q2 k hk
      exact uqeFrom_fuel_irrelevant src m _ (i + k) q2 (by omega) (by omega)
    by_cases c1 : q.isSome ∧ src.get ⟨i, h⟩ = bs
    · rw [if_pos c1, if_pos c1]
      exact hfi q 2 (by omega)
    · rw [if_neg c1, if_neg c1]
      by_cases c2 : src.get ⟨i, h⟩ = dq ∨ src.get ⟨i, h⟩ = sq
      · rw [if_pos c2, if_pos c2]
        by_cases c3 : q = some (.single (src.get ⟨i, h⟩))
        · rw [if_pos c3, if_pos c3]
          exact hfi none 1 (by omega)
        · rw [if_neg c3, if_neg c3]
          by_cases c4 : src.get? (i + 1) = some (src.get ⟨i, h⟩) ∧
              src.get? (i + 2) = some (src.get ⟨i, h⟩)
          · rw [if_pos c4, if_pos c4]
            by_cases c5 : q = some (.triple (src.get ⟨i, h⟩)) ∨
                q = some (.single (src.get ⟨i, h⟩))
            · rw [if_pos c5, if_pos c5]
              exact hfi none 3 (by omega)
            · rw [if_neg c5, if_neg c5]
              by_cases c6 : q.isSome
              · rw [if_pos c6, if_pos c6]
                exact hfi q 3 (by omega)
              · rw [if_neg c6, if_neg c6]
                exact hfi _ 3 (by omega)
          · rw [if_neg c4, if_neg c4]
            by_cases c7 : q = none
            · rw [if_pos c7, if_pos c7]
              exact hfi _ 1 (by omega)
            · rw [if_neg c7, if_neg c7]
              exact hfi q 1 (by omega)
      · rw [if_neg c2, if_neg c2]
        by_cases c8 : q.isSome
        · rw [if_pos c8, if_pos c8]
          exact hfi q 1 (by omega)
        · rw [if_neg c8, if_neg c8]
          rw [hfi none 1 (by omega)]
  · rw [dif_neg h]
    exact uqeAt_stop src q i (by omega)

/-- A character passing the scanner's quote test is a quote character. -/
theorem isQuoteChar_of_or {c : Char} (h : c = dq ∨ c = sq) :
    isQuoteChar c = true := by
  rcases h with h | h <;> simp [isQuoteChar, h]

/-- Splitting a suffix of the source at its first character. -/
theorem drop_cons_get (src : Txt) (i : Nat) (h : i < src.length) :
    src.drop i = src.get ⟨i, h⟩ :: src.drop (i + 1) := by
  rw [List.drop_eq_getElem_cons h]
  rfl

/-- Prepending one skipped unit to a span-run decomposition. -/
theorem span_prepend (src : Txt) (st : QuoteState) (u : Txt) (i : Nat)
    (hu : SpanUnit (stChar st) (stTriple st) u)
    (hdrop : src.drop i = u ++ src.drop (i + u.length))
    (hstep : uqeAt src (some st) i = uqeAt src (some st) (i + u.length))
    (hrest : ∃ units : List Txt,
      (∀ v ∈ units, SpanUnit (stChar st) (stTriple st) v) ∧
      ((∃ j, src.drop (i + u.length) =
            units.join ++ stCloser st ++ src.drop j ∧
          j = (i + u.length) + units.join.length + (stCloser st).length ∧
          uqeAt src (some st) (i + u.length) = uqeAt src none j) ∨
       ((src.drop (i + u.length) = units.join ∨
           src.drop (i + u.length) = units.join ++ [bs]) ∧
          uqeAt src (some st) (i + u.length) = []))) :
    ∃ units : List Txt,
      (∀ v ∈ units, SpanUnit (stChar st) (stTriple st) v) ∧
      ((∃ j, src.drop i = units.join ++ stCloser st ++ src.drop j ∧
          j = i + units.join.length + (stCloser st).length ∧
          uqeAt src (some st) i = uqeAt src none j) ∨
       ((src.drop i = units.join ∨ src.drop i = units.join ++ [bs]) ∧
          uqeAt src (some st) i = [])) := by
  obtain ⟨units2, hu2, hout⟩ := hrest
  have hjoin : (u :: units2).join = u ++ units2.join := rfl
  refine ⟨u :: units2, ?_, ?_⟩
  · intro v hv
    rcases List.mem_cons.mp hv with hv | hv
    · rw [hv]
      exact hu
    · exact hu2 v hv
  · rcases hout with ⟨j, hj1, hj2, hj3⟩ | ⟨hj1, hj2⟩
    · refine Or.inl ⟨j, ?_, ?_, by rw [hstep, hj3]⟩
      · rw [hdrop, hj1, hjoin]
        simp
      · rw [hj2, hjoin, List.length_append]
        omega
    · refine Or.inr ⟨?_, by rw [hstep, hj2]⟩
      rcases hj1 with hj1 | hj1
      · exact Or.inl (by rw [hdrop, hj1, hjoin])
      · exact Or.inr (by rw [hdrop, hj1, hjoin, List.append_assoc])

/-- A scanner run in a quote state: the text from the scan position
splits into skipped span units followed either by the closing
delimiter — after which the scan continues in unquoted state at the
position just past it — or by the end of the text (possibly with a
dangling backslash), in which case nothing is yielded at all. -/
theorem uqeAt_span (src : Txt) (st : QuoteState) :
    ∀ (n i : Nat), src.length - i ≤ n →
      ∃ units : List Txt,
        (∀ v ∈ units, SpanUnit (stChar st) (stTriple st) v) ∧
        ((∃ j, src.drop i = units.join ++ stCloser st ++ src.drop j ∧
            j = i + units.join.length + (stCloser st).length ∧
            uqeAt src (some st) i = uqeAt src none j) ∨
         ((src.drop i = units.join ∨ src.drop i = units.join ++ [bs]) ∧
            uqeAt src (some st) i = [])) := by
  intro n
  induction n with
  | zero =>
    intro i hn
    refine ⟨[], by simp, Or.inr ⟨Or.inl ?_, uqeAt_stop src _ i (by omega)⟩⟩
    rw [List.drop_eq_nil_of_le (by omega)]
    rfl
  | succ m ih =>
    intro i hn
    by_cases h : i < src.length
    · have hstep := uqeAt_eq src (some st) i
      rw [dif_pos h] at hstep
      by_cases hbs : src.get ⟨i, h⟩ = bs
      · rw [if_pos ⟨rfl, hbs⟩] at hstep
        by_cases h2 : i + 1 < src.length
        · have hdrop : src.drop i =
              [bs, src.get ⟨i + 1, h2⟩] ++ src.drop (i + 2) := by
            rw [drop_cons_get src i h, hbs, drop_cons_get src (i + 1) h2]
            rfl
          exact span_prepend src st [bs, src.get ⟨i + 1, h2⟩] i
            (SpanUnit.esc _) hdrop hstep (ih (i + 2) (by omega))
        · refine ⟨[], by simp, Or.inr ⟨Or.inr ?_, ?_⟩⟩
          · rw [drop_cons_get src i h, hbs,
              List.drop_eq_nil_of_le (by omega)]
            rfl
          · rw [hstep]
            exact uqeAt_stop src _ _ (by omega)
      · by_cases hqc : src.get ⟨i, h⟩ = dq ∨ src.get ⟨i, h⟩ = sq
        · rw [if_neg (fun hc => hbs hc.2), if_pos hqc] at hstep
          by_cases hc3 : (some st : Option QuoteState) =
              some (.single (src.get ⟨i, h⟩))
          · rw [if_pos hc3] at hstep
            injection hc3 with hst
            refine ⟨[], by simp, Or.inl ⟨i + 1, ?_, ?_, hstep⟩⟩
            · rw [drop_cons_get src i h, hst]
              rfl
            · rw [hst]
              rfl
          · rw [if_neg hc3] at hstep
            by_cases hc4 : src.get? (i + 1) = some (src.get ⟨i, h⟩) ∧
                src.get? (i + 2) = some (src.get ⟨i, h⟩)
            · rw [if_pos hc4] at hstep
              obtain ⟨h2, hg2⟩ := List.get?_eq_some.mp hc4.1
              obtain ⟨h3, hg3⟩ := List.get?_eq_some.mp hc4.2
              have hdrop : src.drop i = [src.get ⟨i, h⟩, src.get ⟨i, h⟩,
                  src.get ⟨i, h⟩] ++ src.drop (i + 3) := by
                rw [drop_cons_get src i h, drop_cons_get src (i + 1) h2,
                  drop_cons_get src (i + 2) h3, hg2, hg3]
                rfl
              by_cases hc5 : (some st : Option QuoteState) =
                    some (.triple (src.get ⟨i, h⟩)) ∨
                  (some st : Option QuoteState) =
                    some (.single (src.get ⟨i, h⟩))
              · rw [if_pos hc5] at hstep
                have hst : st = .triple (src.get ⟨i, h⟩) := by
                  rcases hc5 with h5 | h5
                  · injection h5
                  · exact absurd h5 hc3
                refine ⟨[], by simp, Or.inl ⟨i + 3, ?_, ?_, hstep⟩⟩
                · rw [hdrop, hst]
                  rfl
                · rw [hst]
                  rfl
              · rw [if_neg hc5,
                  if_pos (show (some st : Option QuoteState).isSome = true
                    from rfl)] at hstep
                have hchn : src.get ⟨i, h⟩ ≠ stChar st := by
                  intro hcc
                  cases st with
                  | single a =>
                    exact hc3 (by rw [show a = src.get ⟨i, h⟩ from hcc.symm])
                  | triple a =>
                    exact hc5 (Or.inl
                      (by rw [show a = src.get ⟨i, h⟩ from hcc.symm]))
                exact span_prepend src st
                  [src.get ⟨i, h⟩, src.get ⟨i, h⟩, src.get ⟨i, h⟩] i
                  (SpanUnit.otherTriple _ (isQuoteChar_of_or hqc) hchn)
                  hdrop hstep (ih (i + 3) (by omega))
            · rw [if_neg hc4, if_neg (by simp)] at hstep
              have hlq : src.get ⟨i, h⟩ = stChar st → stTriple st = true := by
                intro hcc
                cases st with
                | single a =>
                  exact absurd (by rw [show a = src.get ⟨i, h⟩ from hcc.symm])
                    hc3
                | triple a => rfl
              have hdrop : src.drop i =
                  [src.get ⟨i, h⟩] ++ src.drop (i + 1) := by
                rw [drop_cons_get src i h]
                rfl
              exact span_prepend src st [src.get ⟨i, h⟩] i
                (SpanUnit.loneQuote _ (isQuoteChar_of_or hqc) hlq)
                hdrop hstep (ih (i + 1) (by omega))
        · rw [if_neg (fun hc => hbs hc.2), if_neg hqc,
            if_pos (show (some st : Option QuoteState).isSome = true
              from rfl)] at hstep
          have hq : isQuoteChar (src.get ⟨i, h⟩) = false := by
            simp only [isQuoteChar, Bool.or_eq_false_iff]
            constructor
            · simpa using fun he => hqc (Or.inl he)
            · simpa using fun he => hqc (Or.inr he)
          have hdrop : src.drop i = [src.get ⟨i, h⟩] ++ src.drop (i + 1) := by
            rw [drop_cons_get src i h]
            rfl
          exact span_prepend src st [src.get ⟨i, h⟩] i
            (SpanUnit.plainChar _ hq hbs) hdrop hstep (ih (i + 1) (by omega))
    · refine ⟨[], by simp, Or.inr ⟨Or.inl ?_, uqeAt_stop src _ i (by omega)⟩⟩
      rw [List.drop_eq_nil_of_le (by omega)]
      rfl

/-- The top-level scanner run: the scanned suffix decomposes into plain
unquoted characters and quoted-string spans (only the final one possibly
unterminated), and the scanner yields exactly the plain characters at
their indices — so the skipped indices are exactly those covered by the
quoted-string spans. -/
theorem uqeAt_decomp (src : Txt) :
    ∀ (n i : Nat), src.length - i ≤ n →
      ∃ segs : List Seg,
        (segs.map segText).join = src.drop i ∧
        SegsWF segs ∧
        uqeAt src none i = plainPairs i segs := by
  intro n
  induction n with
  | zero =>
    intro i hn
    refine ⟨[], ?_, SegsWF.nil, ?_⟩
    · rw [List.drop_eq_nil_of_le (by omega)]
      rfl
    · rw [uqeAt_stop src none i (by omega)]
      rfl
  | succ m ih =>
    intro i hn
    by_cases h : i < src.length
    · have hstep := uqeAt_eq src none i
      rw [dif_pos h] at hstep
      by_cases hqc : src.get ⟨i, h⟩ = dq ∨ src.get ⟨i, h⟩ = sq
      · rw [if_neg (by simp), if_pos hqc, if_neg (by simp)] at hstep
        by_cases hc4 : src.get? (i + 1) = some (src.get ⟨i, h⟩) ∧
            src.get? (i + 2) = some (src.get ⟨i, h⟩)
        · rw [if_pos hc4, if_neg (by simp), if_neg (by simp)] at hstep
          obtain ⟨h2, hg2⟩ := List.get?_eq_some.mp hc4.1
          obtain ⟨h3, hg3⟩ := List.get?_eq_some.mp hc4.2
          have hdrop : src.drop i = [src.get ⟨i, h⟩, src.get ⟨i, h⟩,
              src.get ⟨i, h⟩] ++ src.drop (i + 3) := by
            rw [drop_cons_get src i h, drop_cons_get src (i + 1) h2,
              drop_cons_get src (i + 2) h3, hg2, hg3]
            rfl
          obtain ⟨units, hun, hout⟩ :=
            uqeAt_span src (.triple (src.get ⟨i, h⟩)) src.length (i + 3)
              (by omega)
          rcases hout with ⟨j, hj1, hj2, hj3⟩ | ⟨hj1, hj2⟩
          · have hj2b : j = i + 6 + units.join.length := by
              rw [hj2]
              simp [stCloser]
              omega
            obtain ⟨segs2, hs1, hs2, hs3⟩ := ih j (by omega)
            refine ⟨.span (src.get ⟨i, h⟩ :: src.get ⟨i, h⟩ :: src.get ⟨i, h⟩ ::
                units.join ++ [src.get ⟨i, h⟩, src.get ⟨i, h⟩,
                  src.get ⟨i, h⟩]) :: segs2, ?_, ?_, ?_⟩
            · simp only [List.map_cons, List.join_cons, segText, hs1]
              rw [hdrop, hj1]
              simp [stCloser]
            · exact SegsWF.closed _ _
                (QuotedSpan.triple _ units (isQuoteChar_of_or hqc) hun) hs2
            · rw [hstep, hj3, hs3, plainPairs]
              congr 1
              simp only [List.length_cons, List.length_append, List.length_nil]
              omega
          · obtain ⟨tail, htl, hj1b⟩ :
                ∃ tail, (tail = [] ∨ tail = [bs]) ∧
                  src.drop (i + 3) = units.join ++ tail := by
              rcases hj1 with hj1 | hj1
              · exact ⟨[], Or.inl rfl, by rw [hj1, List.append_nil]⟩
              · exact ⟨[bs], Or.inr rfl, hj1⟩
            refine ⟨[.span (src.get ⟨i, h⟩ :: src.get ⟨i, h⟩ ::
                src.get ⟨i, h⟩ :: units.join ++ tail)], ?_, ?_, ?_⟩
            · simp only [List.map_cons, List.map_nil, List.join_cons,
                List.join_nil, segText]
              rw [hdrop, hj1b]
              simp
            · exact SegsWF.last _
                (OpenSpan.triple _ units tail (isQuoteChar_of_or hqc) hun htl)
            · rw [hstep, hj2]
              rfl
        · rw [if_neg hc4,
            if_pos (show (none : Option QuoteState) = none from rfl)] at hstep
          have hdrop : src.drop i =
              [src.get ⟨i, h⟩] ++ src.drop (i + 1) := by
            rw [drop_cons_get src i h]
            rfl
          obtain ⟨units, hun, hout⟩ :=
            uqeAt_span src (.single (src.get ⟨i, h⟩)) src.length (i + 1)
              (by omega)
          rcases hout with ⟨j, hj1, hj2, hj3⟩ | ⟨hj1, hj2⟩
          · have hj2b : j = i + 2 + units.join.length := by
              rw [hj2]
              simp [stCloser]
              omega
            obtain ⟨segs2, hs1, hs2, hs3⟩ := ih j (by omega)
            refine ⟨.span (src.get ⟨i, h⟩ ::
                units.join ++ [src.get ⟨i, h⟩]) :: segs2, ?_, ?_, ?_⟩
            · simp only [List.map_cons, List.join_cons, segText, hs1]
              rw [hdrop, hj1]
              simp [stCloser]
            · exact SegsWF.closed _ _
                (QuotedSpan.single _ units (isQuoteChar_of_or hqc) hun) hs2
            · rw [hstep, hj3, hs3, plainPairs]
              congr 1
              simp only [List.length_cons, List.length_append, List.length_nil]
              omega
          · obtain ⟨tail, htl, hj1b⟩ :
                ∃ tail, (tail = [] ∨ tail = [bs]) ∧
                  src.drop (i + 1) = units.join ++ tail := by
              rcases hj1 with hj1 | hj1
              · exact ⟨[], Or.inl rfl, by rw [hj1, List.append_nil]⟩
              · exact ⟨[bs], Or.inr rfl, hj1⟩
            refine ⟨[.span (src.get ⟨i, h⟩ :: units.join ++ tail)],
                ?_, ?_, ?_⟩
            · simp only [List.map_cons, List.map_nil, List.join_cons,
                List.join_nil, segText]
              rw [hdrop, hj1b]
              simp
            · exact SegsWF.last _
                (OpenSpan.single _ units tail (isQuoteChar_of_or hqc) hun htl)
            · rw [hstep, hj2]
              rfl
      · rw [if_neg (by simp), if_neg hqc, if_neg (by simp)] at hstep
        obtain ⟨segs2, hs1, hs2, hs3⟩ := ih (i + 1) (by omega)
        refine ⟨.plain (src.get ⟨i, h⟩) :: segs2, ?_, ?_, ?_⟩
        · simp only [List.map_cons, List.join_cons, segText, hs1]
          rw [drop_cons_get src i h]
          rfl
        · refine SegsWF.plain _ _ ?_ hs2
          simp only [isQuoteChar, Bool.or_eq_false_iff]
          constructor
          · simpa using fun he => hqc (Or.inl he)
          · simpa using fun he => hqc (Or.inr he)
        · rw [hstep, hs3]
          rfl
    · refine ⟨[], ?_, SegsWF.nil, ?_⟩
      · rw [List.drop_eq_nil_of_le (by omega)]
        rfl
      · rw [uqeAt_stop src none i (by omega)]
        rfl

/-- C5: `unquoted_enumerate(s, i)` yields only pairs `(j, s[j])` with
`j ≥ i`; the scanned suffix of every string decomposes into plain
unquoted characters and quoted-string spans (single-, double- or
triple-quoted, with backslash-escaped characters skipped as units, the
final span possibly unterminated), with the scanner yielding exactly
the plain characters at their indices — so the skipped indices are
exactly those inside the quoted-string spans; and scanning the
quote-interplay fixture `a'b'''c"""'''"d"''''"""e'''"""f"""'''` from
index 0 yields exactly the pairs `(0, a)`, `(6, c)` and `(23, e)`. -/
theorem claim_C5 :
    (∀ (s : Txt) (i : Nat) (p : Nat × Char),
        p ∈ unquoted_enumerate s i → i ≤ p.1 ∧ s.get? p.1 = some p.2) ∧
    (∀ (s : Txt) (i : Nat), ∃ segs : List Seg,
        (segs.map segText).join = s.drop i ∧
        SegsWF segs ∧
        unquoted_enumerate s i = plainPairs i segs) ∧
      unquoted_enumerate rqs 0 = [(0, 'a'), (6, 'c'), (23, 'e')] :=
  ⟨fun s i p hp => uqeFrom_mem s _ none i p hp,
   fun s i => uqeAt_decomp s s.length i (by omega),
   by decide⟩

/-- Witness for C5 at a concrete yielded pair of the fixture scan,
together with the span decomposition of the fixture itself. -/
theorem claim_C5_witness :
    (0 ≤ 0 ∧ rqs.get? 0 = some 'a') ∧
    (∃ segs : List Seg,
        (segs.map segText).join = rqs.drop 0 ∧
        SegsWF segs ∧
        unquoted_enumerate rqs 0 = plainPairs 0 segs) ∧
      unquoted_enumerate rqs 0 = [(0, 'a'), (6, 'c'), (23, 'e')] :=
  ⟨claim_C5.1 rqs 0 (0, 'a') (by decide), claim_C5.2.1 rqs 0, claim_C5.2.2⟩

/-- How many pairs of a scanner-output list carry the character `c`. -/
def countc (c : Char) (l : List (Nat × Char)) : Nat :=
  (l.filter (fun p => p.2 = c)).length

theorem countc_nil (c : Char) : countc c [] = 0 := rfl

theorem countc_cons_self (c : Char) (i : Nat) (l : List (Nat × Char)) :
    countc c ((i, c) :: l) = countc c l + 1 := by
  simp [countc, List.filter_cons]

theorem countc_cons_ne {ch c : Char} (h : ch ≠ c) (i : Nat) (l : List (Nat × Char)) :
    countc c ((i, ch) :: l) = countc c l := by
  simp [countc, List.filter_cons, h]

/-- Case analysis for prefixes of a cons list. -/
theorem prefix_cons_cases {α : Type} {x : α} {l p : List α} (h : p <+: x :: l) :
    p = [] ∨ ∃ q, p = x :: q ∧ q <+: l := by
  cases p with
  | nil => exact Or.inl rfl
  | cons y ys =>
    obtain ⟨t, ht⟩ := h
    injection ht with h1 h2
    exact Or.inr ⟨ys, by rw [h1], ⟨t, h2⟩⟩

/-- Characterisation of the `find_closing_item` loop: starting from
nesting level `level ≥ 1`, it returns `some k` exactly when the pair list
splits at an occurrence of the closing delimiter at index `k` such that
the running level reaches exactly 1 there and never drops below 1
earlier. -/
theorem fciLoop_some_iff (od cd : Char) (hne : od ≠ cd) :
    ∀ (pairs : List (Nat × Char)) (level : Nat), 1 ≤ level → ∀ k : Nat,
      (fciLoop od cd pairs level = some k ↔
        ∃ pre post, pairs = pre ++ (k, cd) :: post ∧
          countc od pre + level = countc cd pre + 1 ∧
          ∀ p, p <+: pre → countc cd p + 1 ≤ countc od p + level) := by
  intro pairs
  induction pairs with
  | nil =>
    intro level hl k
    simp [fciLoop]
  | cons hd rest ih =>
    obtain ⟨i, ch⟩ := hd
    intro level hl k
    rw [fciLoop]
    by_cases hod : ch = od
    · subst hod
      have hnecd : ch ≠ cd := hne
      rw [if_pos rfl, ih (level + 1) (by omega) k]
      constructor
      · rintro ⟨pre, post, rfl, hmain, hpre⟩
        refine ⟨(i, ch) :: pre, post, rfl, ?_, ?_⟩
        · rw [countc_cons_self, countc_cons_ne hnecd]
          omega
        · intro p hp
          rcases prefix_cons_cases hp with rfl | ⟨q, rfl, hq⟩
          · simp only [countc_nil]; omega
          · have := hpre q hq
            rw [countc_cons_self, countc_cons_ne hnecd]
            omega
      · rintro ⟨pre, post, heq, hmain, hpre⟩
        cases pre with
        | nil =>
          exfalso
          simp only [List.nil_append, List.cons.injEq, Prod.mk.injEq] at heq
          exact hnecd heq.1.2
        | cons q qs =>
          simp only [List.cons_append, List.cons.injEq] at heq
          obtain ⟨rfl, rfl⟩ := heq
          rw [countc_cons_self, countc_cons_ne hnecd] at hmain
          refine ⟨qs, post, rfl, by omega, ?_⟩
          intro p hp
          have := hpre ((i, ch) :: p) (List.cons_prefix_cons.mpr ⟨rfl, hp⟩)
          rw [countc_cons_self, countc_cons_ne hnecd] at this
          omega
    · by_cases hcd : ch = cd
      · subst hcd
        have hneod : ch ≠ od := hod
        rw [if_neg hod, if_pos rfl]
        by_cases hlev : level ≤ 1
        · have hl1 : level = 1 := by omega
          subst hl1
          rw [if_pos (le_refl 1)]
          constructor
          · rintro h
            injection h with h
            subst h
            refine ⟨[], rest, rfl, by simp only [countc_nil], ?_⟩
            intro p hp
            have := List.prefix_nil.mp hp
            subst this
            simp only [countc_nil]
            omega
          · rintro ⟨pre, post, heq, hmain, hpre⟩
            cases pre with
            | nil =>
              simp only [List.nil_append, List.cons.injEq, Prod.mk.injEq] at heq
              rw [heq.1.1]
            | cons q qs =>
              exfalso
              simp only [List.cons_append, List.cons.injEq] at heq
              obtain ⟨rfl, rfl⟩ := heq
              have := hpre [(i, ch)] ⟨qs, rfl⟩
              rw [countc_cons_self, countc_cons_ne hneod] at this
              simp only [countc_nil] at this
              omega
        · rw [if_neg hlev, ih (level - 1) (by omega) k]
          constructor
          · rintro ⟨pre, post, rfl, hmain, hpre⟩
            refine ⟨(i, ch) :: pre, post, rfl, ?_, ?_⟩
            · rw [countc_cons_self, countc_cons_ne hneod]
              omega
            · intro p hp
              rcases prefix_cons_cases hp with rfl | ⟨q, rfl, hq⟩
              · simp only [countc_nil]; omega
              · have := hpre q hq
                rw [countc_cons_self, countc_cons_ne hneod]
                omega
          · rintro ⟨pre, post, heq, hmain, hpre⟩
            cases pre with
            | nil =>
              exfalso
              simp only [List.nil_append, List.cons.injEq, Prod.mk.injEq] at heq
              obtain ⟨⟨h1, -⟩, h2⟩ := heq
              subst h2
              simp only [countc_nil] at hmain
              omega
            | cons q qs =>
              simp only [List.cons_append, List.cons.injEq] at heq
              obtain ⟨rfl, rfl⟩ := heq
              rw [countc_cons_self, countc_cons_ne hneod] at hmain
              refine ⟨qs, post, rfl, by omega, ?_⟩
              intro p hp
              have := hpre ((i, ch) :: p) (List.cons_prefix_cons.mpr ⟨rfl, hp⟩)
              rw [countc_cons_self, countc_cons_ne hneod] at this
              omega
      · rw [if_neg hod, if_neg hcd, ih level hl k]
        constructor
        · rintro ⟨pre, post, rfl, hmain, hpre⟩
          refine ⟨(i, ch) :: pre, post, rfl, ?_, ?_⟩
          · rw [countc_cons_ne hod, countc_cons_ne hcd]
            omega
          · intro p hp
            rcases prefix_cons_cases hp with rfl | ⟨q, rfl, hq⟩
            · simp only [countc_nil]; omega
            · have := hpre q hq
              rw [countc_cons_ne hod, countc_cons_ne hcd]
              omega
        · rintro ⟨pre, post, heq, hmain, hpre⟩
          cases pre with
          | nil =>
            exfalso
            simp only [List.nil_append, List.cons.injEq, Prod.mk.injEq] at heq
            exact hcd heq.1.2
          | cons q qs =>
            simp only [List.cons_append, List.cons.injEq] at heq
            obtain ⟨rfl, rfl⟩ := heq
            rw [countc_cons_ne hod, countc_cons_ne hcd] at hmain
            refine ⟨qs, post, rfl, by omega, ?_⟩
            intro p hp
            have := hpre ((i, ch) :: p) (List.cons_prefix_cons.mpr ⟨rfl, hp⟩)
            rw [countc_cons_ne hod, countc_cons_ne hcd] at this
            omega

/-- C7: for distinct opening and closing delimiters, `find_closing_item`
returns `some k` exactly when the unquoted scan after the opening
delimiter splits at a closing delimiter at index `k` whose preceding
unquoted delimiters are balanced (equal open and close counts) with no
unmatched closing delimiter in any earlier prefix; in particular an
unclosed opening delimiter yields `none`. -/
theorem claim_C7 (code : Txt) (start_index : Nat) (od cd : Char) (hne : od ≠ cd)
    (k : Nat) :
    find_closing_item code start_index (od, cd) = some k ↔
      ∃ pre post, unquoted_enumerate code (start_index + 1) = pre ++ (k, cd) :: post ∧
        countc od pre = countc cd pre ∧
        ∀ p, p <+: pre → countc cd p ≤ countc od p := by
  rw [find_closing_item]
  rw [fciLoop_some_iff od cd hne _ 1 (le_refl 1) k]
  constructor
  · rintro ⟨pre, post, h1, h2, h3⟩
    exact ⟨pre, post, h1, by omega, fun p hp => by have := h3 p hp; omega⟩
  · rintro ⟨pre, post, h1, h2, h3⟩
    exact ⟨pre, post, h1, by omega, fun p hp => by have := h3 p hp; omega⟩

/-- Witness for C7 on the snippet `((a)b)`: the matcher finds the closing
parenthesis at index 5 and the characterisation holds there. -/
theorem claim_C7_witness :
    ∃ pre post,
      unquoted_enumerate "((a)b)".toList (0 + 1) = pre ++ (5, ')') :: post ∧
        countc '(' pre = countc ')' pre ∧
        ∀ p, p <+: pre → countc ')' p ≤ countc '(' p :=
  (claim_C7 "((a)b)".toList 0 '(' ')' (by decide) 5).mp (by decide)

/-! ## The Python AST model

An inductive covering the node kinds exercised by the claims.  Node
identity (Python object identity, parent links assigned by
`assign_parents`) is represented by the node's path from the root: the
list of child indices, where a node's children are listed by
`childrenOf` in the order of `ast.iter_child_nodes` (field order, with
operator nodes omitted since they carry no position or children of
interest and are never yielded by the walker). -/

/-- Position attributes carried by located Python AST nodes:
`lineno`, `col_offset`, `end_lineno`, `end_col_offset`. -/
structure Span where
  lineno : Nat
  col_offset : Nat
  end_lineno : Nat
  end_col_offset : Nat
deriving DecidableEq, Repr

/-- Values of `ast.Constant` nodes. -/
inductive ConstV where
  | cint (n : Int)
  | cstr (s : String)
  | cbool (b : Bool)
  | cnone
deriving DecidableEq, Repr

/-- The Python AST node kinds needed by the claims.  `ExprS` is
`ast.Expr` (an expression statement), `Keyword` is `ast.keyword`,
`IndexNode` is the pre-3.9 `ast.Index` slice wrapper, and
`Comprehension` is `ast.comprehension` (which, like `Module`, has no
position attributes). -/
inductive PyAst where
  | Module (body : List PyAst)
  | Assign (span : Span) (targets : List PyAst) (value : PyAst)
  | AugAssign (span : Span) (target : PyAst) (value : PyAst)
  | ExprS (span : Span) (value : PyAst)
  | Return (span : Span) (value : Option PyAst)
  | If (span : Span) (test : PyAst) (body orelse : List PyAst)
  | While (span : Span) (test : PyAst) (body orelse : List PyAst)
  | For (span : Span) (target iter : PyAst) (body orelse : List PyAst)
  | BoolOp (span : Span) (values : List PyAst)
  | BinOp (span : Span) (left right : PyAst)
  | UnaryOp (span : Span) (operand : PyAst)
  | IfExp (span : Span) (test body orelse : PyAst)
  | Compare (span : Span) (left : PyAst) (comparators : List PyAst)
  | Call (span : Span) (func : PyAst) (args : List PyAst) (keywords : List PyAst)
  | Keyword (span : Span) (arg : Option String) (value : PyAst)
  | Attribute (span : Span) (value : PyAst) (attr : String)
  | Subscript (span : Span) (value : PyAst) (slice : PyAst)
  | IndexNode (span : Span) (value : PyAst)
  | Name (span : Span) (id : String)
  | Constant (span : Span) (val : ConstV)
  | TupleE (span : Span) (elts : List PyAst)
  | ListE (span : Span) (elts : List PyAst)
  | ListComp (span : Span) (elt : PyAst) (generators : List PyAst)
  | Comprehension (target iter : PyAst) (ifs : List PyAst)

/-- The children of a node in `ast.iter_child_nodes` order: fields in
declaration order, list fields flattened, absent optional fields skipped
(operator nodes omitted). -/
def childrenOf : PyAst → List PyAst
  | .Module body => body
  | .Assign _ targets value => targets ++ [value]
  | .AugAssign _ target value => [target, value]
  | .ExprS _ value => [value]
  | .Return _ value => value.toList
  | .If _ test body orelse => test :: (body ++ orelse)
  | .While _ test body orelse => test :: (body ++ orelse)
  | .For _ target iter body orelse => target :: iter :: (body ++ orelse)
  | .BoolOp _ values => values
  | .BinOp _ left right => [left, right]
  | .UnaryOp _ operand => [operand]
  | .IfExp _ test body orelse => [test, body, orelse]
  | .Compare _ left comparators => left :: comparators
  | .Call _ func args keywords => func :: (args ++ keywords)
  | .Keyword _ _ value => [value]
  | .Attribute _ value _ => [value]
  | .Subscript _ value slice => [value, slice]
  | .IndexNode _ value => [value]
  | .Name _ _ => []
  | .Constant _ _ => []
  | .TupleE _ elts => elts
  | .ListE _ elts => elts
  | .ListComp _ elt generators => elt :: generators
  | .Comprehension target iter ifs => target :: iter :: ifs

/-- The node at a given path below a root (`none` if the path leaves the
tree). -/
def subnode : PyAst → List Nat → Option PyAst
  | node, [] => some node
  | node, i :: rest =>
    match (childrenOf node).get? i with
    | some child => subnode child rest
    | none => none

/-- The position attributes of a node, when it has them (`Module` and
`Comprehension` carry no `lineno`). -/
def nodeSpan : PyAst → Option Span
  | .Module _ => none
  | .Comprehension .. => none
  | .Assign s .. => some s
  | .AugAssign s .. => some s
  | .ExprS s .. => some s
  | .Return s .. => some s
  | .If s .. => some s
  | .While s .. => some s
  | .For s .. => some s
  | .BoolOp s .. => some s
  | .BinOp s .. => some s
  | .UnaryOp s .. => some s
  | .IfExp s .. => some s
  | .Compare s .. => some s
  | .Call s .. => some s
  | .Keyword s .. => some s
  | .Attribute s .. => some s
  | .Subscript s .. => some s
  | .IndexNode s .. => some s
  | .Name s .. => some s
  | .Constant s .. => some s
  | .TupleE s .. => some s
  | .ListE s .. => some s
  | .ListComp s .. => some s

/-- `hasattr(node, "lineno")` composed with reading it. -/
def nodeLineno (n : PyAst) : Option Nat := (nodeSpan n).map Span.lineno

mutual

/-- Path-instrumented translation of `walk_ast_in_order` (optimism.py
lines 2944-3103): yields the evaluated children of each node first, in
the source's branch order, and the node itself last.  The recorded path
uses the child indices of `childrenOf`. -/
def walkPA : List Nat → PyAst → List (List Nat × PyAst)
  | p, n@(.Module body) => walkPAList p 0 body ++ [(p, n)]
  | p, n@(.Assign _ targets value) =>
    walkPA (p ++ [targets.length]) value ++ walkPAList p 0 targets ++ [(p, n)]
  | p, n@(.AugAssign _ target value) =>
    walkPA (p ++ [1]) value ++ walkPA (p ++ [0]) target ++ [(p, n)]
  | p, n@(.ExprS _ value) => walkPA (p ++ [0]) value ++ [(p, n)]
  | p, n@(.Return _ value) => walkPAOpt p 0 value ++ [(p, n)]
  | p, n@(.If _ test body orelse) =>
    walkPA (p ++ [0]) test ++ walkPAList p 1 body ++
      walkPAList p (1 + body.length) orelse ++ [(p, n)]
  | p, n@(.While _ test body orelse) =>
    walkPA (p ++ [0]) test ++ walkPAList p 1 body ++
      walkPAList p (1 + body.length) orelse ++ [(p, n)]
  | p, n@(.For _ target iter body orelse) =>
    walkPA (p ++ [1]) iter ++ walkPA (p ++ [0]) target ++
      walkPAList p 2 body ++ walkPAList p (2 + body.length) orelse ++ [(p, n)]
  | p, n@(.BoolOp _ values) => walkPAList p 0 values ++ [(p, n)]
  | p, n@(.BinOp _ left right) =>
    walkPA (p ++ [0]) left ++ walkPA (p ++ [1]) right ++ [(p, n)]
  | p, n@(.UnaryOp _ operand) => walkPA (p ++ [0]) operand ++ [(p, n)]
  | p, n@(.IfExp _ test body orelse) =>
    walkPA (p ++ [0]) test ++ walkPA (p ++ [1]) body ++
      walkPA (p ++ [2]) orelse ++ [(p, n)]
  | p, n@(.Compare _ left comparators) =>
    walkPA (p ++ [0]) left ++ walkPAList p 1 comparators ++ [(p, n)]
  | p, n@(.Call _ func args keywords) =>
    walkPA (p ++ [0]) func ++ walkPAList p 1 args ++
      walkPAList p (1 + args.length) keywords ++ [(p, n)]
  | p, n@(.Keyword _ _ value) => walkPA (p ++ [0]) value ++ [(p, n)]
  | p, n@(.Attribute _ value _) => walkPA (p ++ [0]) value ++ [(p, n)]
  | p, n@(.Subscript _ value slice) =>
    walkPA (p ++ [0]) value ++ walkPA (p ++ [1]) slice ++ [(p, n)]
  -- ast.Index has no branch in walk_ast_in_order, so it falls through to
  -- the final yield with no children walked
  | p, n@(.IndexNode _ _) => [(p, n)]
  | p, n@(.Name _ _) => [(p, n)]
  | p, n@(.Constant _ _) => [(p, n)]
  | p, n@(.TupleE _ elts) => walkPAList p 0 elts ++ [(p, n)]
  | p, n@(.ListE _ elts) => walkPAList p 0 elts ++ [(p, n)]
  | p, n@(.ListComp _ elt generators) =>
    walkPAList p 1 generators ++ walkPA (p ++ [0]) elt ++ [(p, n)]
  | p, n@(.Comprehension target iter ifs) =>
    walkPA (p ++ [1]) iter ++ walkPAList p 2 ifs ++
      walkPA (p ++ [0]) target ++ [(p, n)]

/-- Walks the consecutive children `xs` whose child indices start at
`i`. -/
def walkPAList : List Nat → Nat → List PyAst → List (List Nat × PyAst)
  | _, _, [] => []
  | p, i, x :: xs => walkPA (p ++ [i]) x ++ walkPAList p (i + 1) xs

/-- Walks an optional child at child index `i` (Python yields nothing for
`None`). -/
def walkPAOpt (p : List Nat) (i : Nat) : Option PyAst → List (List Nat × PyAst)
  | none => []
  | some x => walkPA (p ++ [i]) x

end

/-- `walk_ast_in_order(node)` (optimism.py lines 2944-3103): all
descendants of the node in execution order, each node yielded after its
yielded children. -/
def walk_ast_in_order (node : PyAst) : List PyAst :=
  (walkPA [] node).map Prod.snd

mutual

/-- Computable node count (plus one per node) of a tree, used as fuel for
the breadth-first walk. -/
def pySize : PyAst → Nat
  | .Module body => 1 + pySizeL body
  | .Assign _ targets value => 1 + pySizeL targets + pySize value
  | .AugAssign _ target value => 1 + pySize target + pySize value
  | .ExprS _ value => 1 + pySize value
  | .Return _ value => 1 + pySizeO value
  | .If _ test body orelse => 1 + pySize test + pySizeL body + pySizeL orelse
  | .While _ test body orelse => 1 + pySize test + pySizeL body + pySizeL orelse
  | .For _ target iter body orelse =>
    1 + pySize target + pySize iter + pySizeL body + pySizeL orelse
  | .BoolOp _ values => 1 + pySizeL values
  | .BinOp _ left right => 1 + pySize left + pySize right
  | .UnaryOp _ operand => 1 + pySize operand
  | .IfExp _ test body orelse => 1 + pySize test + pySize body + pySize orelse
  | .Compare _ left comparators => 1 + pySize left + pySizeL comparators
  | .Call _ func args keywords => 1 + pySize func + pySizeL args + pySizeL keywords
  | .Keyword _ _ value => 1 + pySize value
  | .Attribute _ value _ => 1 + pySize value
  | .Subscript _ value slice => 1 + pySize value + pySize slice
  | .IndexNode _ value => 1 + pySize value
  | .Name _ _ => 1
  | .Constant _ _ => 1
  | .TupleE _ elts => 1 + pySizeL elts
  | .ListE _ elts => 1 + pySizeL elts
  | .ListComp _ elt generators => 1 + pySize elt + pySizeL generators
  | .Comprehension target iter ifs => 1 + pySize target + pySize iter + pySizeL ifs

/-- Total `pySize` of a list of trees. -/
def pySizeL : List PyAst → Nat
  | [] => 0
  | x :: xs => pySize x + pySizeL xs

/-- Total `pySize` of an optional tree. -/
def pySizeO : Option PyAst → Nat
  | none => 0
  | some x => pySize x

end

/-- The children of a node paired with their paths. -/
def indexedChildren (p : List Nat) (n : PyAst) : List (List Nat × PyAst) :=
  (childrenOf n).enum.map (fun ic => (p ++ [ic.1], ic.2))

/-- `ast.walk` loop, fuelled: pops the front of the queue, appends the
node's children to the back, and yields the node (breadth-first order).
The fuel only needs to cover the number of nodes processed; `pySize` of
every queued tree is such a bound (see `bfsWalk_fuel_irrelevant`). -/
def bfsWalk : Nat → List (List Nat × PyAst) → List (List Nat × PyAst)
  | 0, _ => []
  | _ + 1, [] => []
  | fuel + 1, (p, n) :: rest => (p, n) :: bfsWalk fuel (rest ++ indexedChildren p n)

/-- `ast.walk(node)` with paths: breadth-first enumeration of the node
and all its descendants. -/
def ast_walk (n : PyAst) : List (List Nat × PyAst) :=
  bfsWalk (pySize n) [([], n)]

theorem pySizeL_eq_sum (l : List PyAst) : pySizeL l = (l.map pySize).sum := by
  induction l with
  | nil => simp [pySizeL]
  | cons x xs ih => simp [pySizeL, ih]

theorem pySize_pos (n : PyAst) : 1 ≤ pySize n := by
  cases n <;> simp [pySize] <;> omega

/-- The children of a node account for its whole size but the node
itself. -/
theorem childrenOf_pySize (n : PyAst) :
    ((childrenOf n).map pySize).sum + 1 = pySize n := by
  cases n with
  | Return s v =>
    cases v <;> simp [childrenOf, pySize, pySizeO, pySizeL_eq_sum] <;> omega
  | _ =>
    simp [childrenOf, pySize, pySizeL_eq_sum] <;> omega

/-- Total size of the trees in a BFS queue. -/
def qMeasure (q : List (List Nat × PyAst)) : Nat :=
  (q.map fun x => pySize x.2).sum

theorem qMeasure_cons (p : List Nat) (n : PyAst) (rest : List (List Nat × PyAst)) :
    qMeasure ((p, n) :: rest) = pySize n + qMeasure rest := by
  simp [qMeasure]

theorem qMeasure_append (a b : List (List Nat × PyAst)) :
    qMeasure (a ++ b) = qMeasure a + qMeasure b := by
  simp [qMeasure]

theorem qMeasure_indexedChildren (p : List Nat) (n : PyAst) :
    qMeasure (indexedChildren p n) + 1 = pySize n := by
  have h : (indexedChildren p n).map (fun x => pySize x.2) =
      (childrenOf n).map pySize := by
    rw [indexedChildren, List.map_map]
    rw [show ((fun (x : List Nat × PyAst) => pySize x.2) ∘
          fun ic : Nat × PyAst => (p ++ [ic.1], ic.2)) =
        (pySize ∘ Prod.snd) from rfl]
    rw [← List.map_map, List.enum_map_snd]
  rw [qMeasure, h]
  exact childrenOf_pySize n

/-- The fuel supplied to `bfsWalk` is irrelevant once it covers the total
queue size, so `ast_walk` is the full breadth-first enumeration. -/
theorem bfsWalk_fuel_irrelevant :
    ∀ (fuel₁ fuel₂ : Nat) (q : List (List Nat × PyAst)),
      qMeasure q ≤ fuel₁ → qMeasure q ≤ fuel₂ →
      bfsWalk fuel₁ q = bfsWalk fuel₂ q := by
  intro fuel₁
  induction fuel₁ using Nat.strong_induction_on with
  | _ fuel₁ ih =>
    intro fuel₂ q
    cases q with
    | nil => intro h1 h2; cases fuel₁ <;> cases fuel₂ <;> rfl
    | cons hd rest =>
      obtain ⟨p, n⟩ := hd
      intro h1 h2
      have hpos := pySize_pos n
      rw [qMeasure_cons] at h1 h2
      have hchild := qMeasure_indexedChildren p n
      cases fuel₁ with
      | zero => omega
      | succ f1 =>
        cases fuel₂ with
        | zero => omega
        | succ f2 =>
          rw [bfsWalk, bfsWalk]
          congr 1
          apply ih f1 (by omega) f2 (rest ++ indexedChildren p n) <;>
            rw [qMeasure_append] <;> omega

/-! ## Claim C4: ordering of `walk_ast_in_order` on comprehensions -/

/-- Projection picking out name nodes. -/
def nameId : PyAst → Option String
  | .Name _ i => some i
  | _ => none

/-- Embedding of the statement `x = [A for y in C if D]` — the very
example used in the docstring of `walk_ast_in_order`. -/
def c4assign : PyAst :=
  .Assign ⟨1, 0, 1, 22⟩ [.Name ⟨1, 0, 1, 1⟩ "x"]
    (.ListComp ⟨1, 4, 1, 22⟩ (.Name ⟨1, 5, 1, 6⟩ "A")
      [.Comprehension (.Name ⟨1, 11, 1, 12⟩ "y") (.Name ⟨1, 16, 1, 17⟩ "C")
        [.Name ⟨1, 21, 1, 22⟩ "D"]])

/-- C4 (code bug): on the embedding of `x = [A for y in C if D]`,
`walk_ast_in_order` yields the name nodes in the order C, D, y, A, x —
the filter condition D comes BEFORE the loop variable y, because the
`ast.comprehension` branch walks `iter`, then `ifs`, then `target`.
The claim (and the function's own docstring, which promises
"C, then y, then D, then A, and finally x") requires the loop variable
before the filter conditions. -/
theorem claim_C4 :
    (walk_ast_in_order c4assign).filterMap nameId = ["C", "D", "y", "A", "x"] ∧
      ["C", "D", "y", "A", "x"] ≠ ["C", "y", "D", "A", "x"] := by
  constructor
  · rfl
  · decide

/-! ## Runtime values and the evaluation collaborator -/

/-- Runtime values of the caller's frame.  Function objects carry their
`__name__` and an object identity (`objId`); Python `is` on functions is
identity of `objId`.  `vgen` is a generator object (as produced by the
tuple branch of `deepish_copy`), carrying the not-yet-copied items it
ranges over. -/
inductive Value where
  | vnone
  | vbool (b : Bool)
  | vint (n : Int)
  | vstr (s : String)
  | vfunc (name : String) (objId : Nat)
  | vmodule (name : String)
  | vlist (elems : List Value)
  | vtuple (elems : List Value)
  | vdict (pairs : List (Value × Value))
  | vset (elems : List Value)
  | vgen (pending : List Value)

/-- The merged variable bindings of a caller stack frame (the globals and
locals that `evaluate_in_context` copies and evaluates against). -/
abbrev Frame := String → Option Value

/-- Conversion of constant-node payloads to runtime values. -/
def constValue : ConstV → Value
  | .cint n => .vint n
  | .cstr s => .vstr s
  | .cbool b => .vbool b
  | .cnone => .vnone

/-- Indexing for the minimal evaluator (non-negative indices of lists and
tuples only; anything else is outside the modelled fragment). -/
def indexValue : Value → Value → Option Value
  | .vlist es, .vint i => if i < 0 then none else es.get? i.toNat
  | .vtuple es, .vint i => if i < 0 then none else es.get? i.toNat
  | _, _ => none

/-- Modelled from the spec: the evaluation collaborator behind
`evaluate_in_context` (optimism.py lines 2921-2941, whose heavy lifting
is Python's `compile`/`eval`, external to the repository).  Per spec
section 9 the core only ever re-evaluates name lookups, attribute
accesses and subscripts, so the model is a minimal evaluator for those
forms plus constants; attribute access is outside the modelled object
fragment and evaluates to `none`, and `none` in general models an
exception raised during evaluation. -/
def evaluate_in_context : PyAst → Frame → Option Value
  | .Name _ id, frame => frame id
  | .Constant _ c, _ => some (constValue c)
  | .Subscript _ v sl, frame => do
    let base ← evaluate_in_context v frame
    let idx ← evaluate_in_context sl frame
    indexValue base idx
  | .IndexNode _ v, frame => evaluate_in_context v frame
  | _, _ => none

/-- Modelled from the spec: the parsing collaborator's unparse-to-text
facility (`ast.unparse`, external to the repository), restricted to the
reference forms that can appear as a callee in the claims; other node
kinds render as a placeholder. -/
def unparse : PyAst → String
  | .Name _ id => id
  | .Attribute _ v a => unparse v ++ "." ++ a
  | .Subscript _ v sl => unparse v ++ "[" ++ unparse sl ++ "]"
  | .IndexNode _ v => unparse v
  | _ => "<expr>"

/-- `hasattr(ast, "unparse")` on the modern interpreter the repository
runs under. -/
def AST_HAS_UNPARSE : Bool := true

/-- `hasattr(ast, "get_source_segment")` on the modern interpreter the
repository runs under. -/
def AST_HAS_GET_SOURCE_SEGMENT : Bool := true

/-- The `function_or_name` argument of `get_my_context` and
`find_call_nodes_on_line`: either a `types.FunctionType` object or a
name string. -/
inductive FuncOrName where
  | fn (name : String) (objId : Nat)
  | str (s : String)

/-! ## The call-site resolver -/

/-- The local `call_matches` predicate of `find_call_nodes_on_line`
(optimism.py lines 3130-3158), applied to the `func` child of a call
node: a string target matches a bare name, the final attribute of an
attribute access, or the exact unparse of the callee; a function target
matches when evaluating the callee in the caller frame yields that exact
object.  `none` models an exception escaping from the evaluation. -/
def call_matches (frame : Frame) (function : FuncOrName) (call_expr : PyAst) :
    Option Bool :=
  match function with
  | .str s =>
    some (
      (match call_expr with | .Name _ id => id == s | _ => false) ||
      (match call_expr with | .Attribute _ _ attr => attr == s | _ => false) ||
      (AST_HAS_UNPARSE && (unparse call_expr == s)))
  | .fn name objId =>
    match evaluate_in_context call_expr frame with
    | none => none
    | some v =>
      some (match v with
        | .vfunc n2 i2 => n2 == name && i2 == objId
        | _ => false)

/-- `is_inside_call_func(node)` (optimism.py lines 3231-3241), with node
identity given by the node's path below `root` (`assign_parents` makes
`node.parent` the node at the path without its last index, and the
`func` child of a Call node has child index 0).  The recursion is
phrased on the reversed path so that dropping the last index is
structural; the empty path is the root, whose parent is `None`. -/
def iicfRev (root : PyAst) : List Nat → Bool
  | [] => false
  | i :: restRev =>
    match subnode root restRev.reverse with
    | some (.Call _ _ _ _) => if i = 0 then true else iicfRev root restRev
    | _ => iicfRev root restRev

/-- `is_inside_call_func` on a path (see `iicfRev`). -/
def is_inside_call_func (root : PyAst) (path : List Nat) : Bool :=
  iicfRev root path.reverse

/-- The kinds at which the fallback pass of `find_call_nodes_on_line`
stops its upward search: `ast.Call` plus the statement-boundary kinds of
the tuple at optimism.py lines 3182-3205, restricted to the kinds
present in the model. -/
def stops_upward_search : PyAst → Bool
  | .Call _ _ _ _ => true
  | .Module _ => true
  | .Return _ _ => true
  | .Assign _ _ _ => true
  | .AugAssign _ _ _ => true
  | .For _ _ _ _ _ => true
  | .While _ _ _ _ => true
  | .If _ _ _ _ => true
  | _ => false

/-- The upward walk of the fallback pass (optimism.py lines 3176-3208):
starting from the parent of the node whose reversed path is given, climb
parent links until a node satisfying `stops_upward_search` is found
(returning its path) or the chain runs out above the root (`none`). -/
def climbRev (root : PyAst) : List Nat → Option (List Nat)
  | [] => none
  | _ :: restRev =>
    match subnode root restRev.reverse with
    | none => none
    | some n =>
      if stops_upward_search n then some restRev.reverse
      else climbRev root restRev

/-- The primary pass of `find_call_nodes_on_line` (optimism.py lines
3160-3170) over the execution-order walk: collects all nodes on the
target line, and among them the matching call nodes, in walk order.
Returns `(all_on_line, result)`; `none` models an escaping evaluation
exception. -/
def primaryLoop (frame : Frame) (function : FuncOrName) (lineno : Nat) :
    List (List Nat × PyAst) →
    Option (List (List Nat × PyAst) × List (List Nat))
  | [] => some ([], [])
  | (p, child) :: rest =>
    if nodeLineno child = some lineno then
      match child with
      | .Call sp func args kws =>
        match call_matches frame function func with
        | none => none
        | some true => do
          let (all, res) ← primaryLoop frame function lineno rest
          return ((p, .Call sp func args kws) :: all, p :: res)
        | some false => do
          let (all, res) ← primaryLoop frame function lineno rest
          return ((p, .Call sp func args kws) :: all, res)
      | other => do
        let (all, res) ← primaryLoop frame function lineno rest
        return ((p, other) :: all, res)
    else primaryLoop frame function lineno rest

/-- `isinstance(node, ast.Call)` with the `func` child extracted. -/
def asCallFunc : PyAst → Option PyAst
  | .Call _ func _ _ => some func
  | _ => none

/-- The fallback pass of `find_call_nodes_on_line` (optimism.py lines
3174-3213): for every node on the target line, climb parent links; if
the climb stops at a matching Call node, append its path (once per
on-line node — the source has no deduplication). -/
def fallbackLoop (root : PyAst) (frame : Frame) (function : FuncOrName) :
    List (List Nat × PyAst) → Option (List (List Nat))
  | [] => some []
  | (p, _) :: rest =>
    match climbRev root p.reverse with
    | some q =>
      match (subnode root q).bind asCallFunc with
      | some func =>
        match call_matches frame function func with
        | none => none
        | some true => do
          let res ← fallbackLoop root frame function rest
          return q :: res
        | some false => fallbackLoop root frame function rest
      | none => fallbackLoop root frame function rest
    | none => fallbackLoop root frame function rest

/-- `find_call_nodes_on_line(node, frame, function, lineno)` (optimism.py
lines 3106-3215): the ordered list of (paths of) call nodes on the
target line which are calls to the given function, falling back to
enclosing calls of the nodes on the line when the primary search finds
none.  `none` models an exception escaping from callee evaluation. -/
def find_call_nodes_on_line (node : PyAst) (frame : Frame) (function : FuncOrName)
    (lineno : Nat) : Option (List (List Nat)) := do
  let (all_on_line, result) ← primaryLoop frame function lineno (walkPA [] node)
  if result.length = 0 then
    fallbackLoop node frame function all_on_line
  else
    return result

/-! ## Claim C3: the fallback search -/

/-- Embedding of the two-line source
`expect(`↵`x + y)` — a call whose own line is 1 while its argument sits
on line 2 (the reported caller line). -/
def c3tree : PyAst :=
  .Module [.ExprS ⟨1, 0, 2, 6⟩
    (.Call ⟨1, 0, 2, 6⟩ (.Name ⟨1, 0, 1, 6⟩ "expect")
      [.BinOp ⟨2, 0, 2, 5⟩ (.Name ⟨2, 0, 2, 1⟩ "x") (.Name ⟨2, 4, 2, 5⟩ "y")] [])]

/-- C3 counterexample: on `c3tree` with target line 2, the primary pass
finds nothing and the fallback pass appends the (unique) enclosing call
node three times — once for each of the three nodes on line 2 (`x`, `y`
and `x + y`) whose upward walk reaches it — so the result has duplicate
call nodes, contradicting "added exactly once". -/
theorem claim_C3_counterexample :
    find_call_nodes_on_line c3tree (fun _ => none) (.str "expect") 2 =
        some [[0, 0], [0, 0], [0, 0]] ∧
      ¬ ([[0, 0], [0, 0], [0, 0]] : List (List Nat)).Nodup := by
  constructor
  · rfl
  · decide

theorem subnode_append (root : PyAst) (a b : List Nat) :
    subnode root (a ++ b) = (subnode root a).bind (fun m => subnode m b) := by
  induction a generalizing root with
  | nil => simp [subnode]
  | cons i rest ih =>
    simp only [List.cons_append, subnode]
    match h : (childrenOf root).get? i with
    | some child => simp [h, ih]
    | none => simp [h]

theorem subnode_take_isSome {root : PyAst} {p : List Nat}
    (h : (subnode root p).isSome) (k : Nat) : (subnode root (p.take k)).isSome := by
  have happ := subnode_append root (p.take k) (p.drop k)
  rw [List.take_append_drop] at happ
  cases hs : subnode root (p.take k) with
  | none => rw [happ, hs] at h; simp at h
  | some m => simp

/-- The chain of proper ancestors of a path, nearest first, ending at the
root path `[]`. -/
def ancestorChain (p : List Nat) : List (List Nat) :=
  (List.range p.length).map (fun k => p.take (p.length - 1 - k))

/-- Is the node at this path a kind that stops the upward search? -/
def stopPred (root : PyAst) (r : List Nat) : Bool :=
  match subnode root r with
  | some m => stops_upward_search m
  | none => false

/-- The nearest proper ancestor of a path whose node is a Call or a
statement boundary — the specification of where the fallback pass's
upward walk ends. -/
def nearestStopAncestor (root : PyAst) (p : List Nat) : Option (List Nat) :=
  (ancestorChain p).find? (stopPred root)

theorem ancestorChain_concat (q : List Nat) (a : Nat) :
    ancestorChain (q ++ [a]) = q :: ancestorChain q := by
  unfold ancestorChain
  have hlen : (q ++ [a]).length = q.length + 1 := by simp
  rw [hlen, List.range_succ_eq_map]
  simp only [List.map_cons, List.map_map]
  congr 1
  · have h0 : q.length + 1 - 1 - 0 = q.length := by omega
    rw [h0, List.take_append_of_le_length (le_refl _), List.take_length]
  · apply List.map_congr_left
    intro j hj
    have hj' : j < q.length := List.mem_range.mp hj
    have harith : q.length + 1 - 1 - Nat.succ j = q.length - 1 - j := by omega
    have hle : q.length - 1 - j ≤ q.length := by omega
    simp only [Function.comp_apply, harith,
      List.take_append_of_le_length hle]

theorem mem_ancestorChain {r p : List Nat} (h : r ∈ ancestorChain p) :
    ∃ k, r = p.take k := by
  simp only [ancestorChain, List.mem_map, List.mem_range] at h
  obtain ⟨k, -, rfl⟩ := h
  exact ⟨_, rfl⟩

/-- The upward climb of the fallback pass ends exactly at the nearest
stopping ancestor, provided the ancestor paths resolve in the tree. -/
theorem climbRev_eq_find (root : PyAst) :
    ∀ rev : List Nat,
      (∀ r ∈ ancestorChain rev.reverse, (subnode root r).isSome) →
      climbRev root rev = nearestStopAncestor root rev.reverse := by
  intro rev
  induction rev with
  | nil =>
    intro _
    simp [climbRev, nearestStopAncestor, ancestorChain, List.find?]
  | cons i restRev ih =>
    intro hres
    have hchain : ancestorChain ((i :: restRev).reverse) =
        restRev.reverse :: ancestorChain restRev.reverse := by
      rw [show (i :: restRev).reverse = restRev.reverse ++ [i] by simp]
      exact ancestorChain_concat _ _
    have hhead : (subnode root restRev.reverse).isSome := by
      apply hres
      rw [hchain]
      exact List.mem_cons_self _ _
    obtain ⟨n, hn⟩ := Option.isSome_iff_exists.mp hhead
    rw [nearestStopAncestor, hchain]
    by_cases hstop : stops_upward_search n
    · rw [List.find?_cons_of_pos _ (by simp [stopPred, hn, hstop])]
      simp only [climbRev, hn]
      rw [if_pos hstop]
    · rw [List.find?_cons_of_neg _ (by simp [stopPred, hn, hstop])]
      have := ih (fun r hr => hres r (by rw [hchain]; exact List.mem_cons_of_mem _ hr))
      rw [nearestStopAncestor] at this
      simp only [climbRev, hn]
      rw [if_neg hstop, this]

/-- What the fallback pass appends for a single node on the target line:
the nearest stopping ancestor, if it is a call node matching the target
function. -/
def fallbackPick (root : PyAst) (frame : Frame) (function : FuncOrName)
    (p : List Nat) : Option (List Nat) :=
  match nearestStopAncestor root p with
  | some q =>
    match (subnode root q).bind asCallFunc with
    | some func =>
      match call_matches frame function func with
      | some true => some q
      | _ => none
    | none => none
  | none => none

/-- The fallback pass collects `fallbackPick` of every node on the line,
in order — one appended entry per node whose climb reaches a matching
call. -/
theorem fallbackLoop_eq_filterMap (root : PyAst) (frame : Frame)
    (function : FuncOrName) :
    ∀ (lst : List (List Nat × PyAst)) (out : List (List Nat)),
      (∀ pn ∈ lst, (subnode root pn.1).isSome) →
      fallbackLoop root frame function lst = some out →
      out = lst.filterMap (fun pn => fallbackPick root frame function pn.1) := by
  intro lst
  induction lst with
  | nil =>
    intro out _ h
    simp only [fallbackLoop, Option.some.injEq] at h
    simp [← h]
  | cons hd rest ih =>
    obtain ⟨p, n⟩ := hd
    intro out hres h
    have hp : (subnode root p).isSome := hres (p, n) (List.mem_cons_self _ _)
    have hclimb : climbRev root p.reverse = nearestStopAncestor root p := by
      have := climbRev_eq_find root p.reverse (by
        intro r hr
        rw [List.reverse_reverse] at hr
        obtain ⟨k, rfl⟩ := mem_ancestorChain hr
        exact subnode_take_isSome hp k)
      rw [List.reverse_reverse] at this
      exact this
    have hrest : ∀ pn ∈ rest, (subnode root pn.1).isSome :=
      fun pn hpn => hres pn (List.mem_cons_of_mem _ hpn)
    rw [List.filterMap_cons]
    match hq : nearestStopAncestor root p with
    | none =>
      simp only [fallbackLoop, hclimb, hq] at h
      have hpick : fallbackPick root frame function p = none := by
        simp only [fallbackPick, hq]
      simp only [hpick]
      exact ih out hrest h
    | some q =>
      match hsub : (subnode root q).bind asCallFunc with
      | some func =>
        match hm : call_matches frame function func with
        | none =>
          simp only [fallbackLoop, hclimb, hq, hsub, hm] at h
          exact absurd h (by simp)
        | some true =>
          simp only [fallbackLoop, hclimb, hq, hsub, hm, Option.bind_eq_bind] at h
          obtain ⟨res, hrest2, hout⟩ := Option.bind_eq_some.mp h
          obtain rfl : q :: res = out := by injection hout
          have hpick : fallbackPick root frame function p = some q := by
            simp only [fallbackPick, hq, hsub, hm]
          simp only [hpick]
          rw [ih res hrest hrest2]
        | some false =>
          simp only [fallbackLoop, hclimb, hq, hsub, hm] at h
          have hpick : fallbackPick root frame function p = none := by
            simp only [fallbackPick, hq, hsub, hm]
          simp only [hpick]
          exact ih out hrest h
      | none =>
        simp only [fallbackLoop, hclimb, hq, hsub] at h
        have hpick : fallbackPick root frame function p = none := by
          simp only [fallbackPick, hq, hsub]
        simp only [hpick]
        exact ih out hrest h

/-- C3 amended: the fallback search runs only when the primary pass
finds zero candidates; its upward walk from each node on the target line
ends at the nearest enclosing Call-or-statement-boundary node
(`nearestStopAncestor`); and a matching enclosing call is appended once
per node on the line whose walk reaches it — so the result can contain
the same call node more than once (the source has no deduplication). -/
theorem claim_C3_amended (tree : PyAst) (frame : Frame) (function : FuncOrName)
    (lineno : Nat) (allLine : List (List Nat × PyAst)) (primRes : List (List Nat))
    (hprim : primaryLoop frame function lineno (walkPA [] tree) =
      some (allLine, primRes))
    (hres : ∀ pn ∈ allLine, (subnode tree pn.1).isSome) :
    (primRes ≠ [] →
      find_call_nodes_on_line tree frame function lineno = some primRes) ∧
    (primRes = [] →
      find_call_nodes_on_line tree frame function lineno =
        fallbackLoop tree frame function allLine) ∧
    (∀ out, fallbackLoop tree frame function allLine = some out →
      out = allLine.filterMap (fun pn => fallbackPick tree frame function pn.1)) := by
  refine ⟨?_, ?_, ?_⟩
  · intro hne
    rw [find_call_nodes_on_line]
    rw [hprim]
    simp only [Option.bind_eq_bind, Option.some_bind]
    rw [if_neg (by simpa using hne)]
    rfl
  · intro hnil
    subst hnil
    rw [find_call_nodes_on_line, hprim]
    simp
  · exact fun out h => fallbackLoop_eq_filterMap tree frame function allLine out hres h

/-- The nodes of `c3tree` on line 2, in walk order, as the primary pass
collects them. -/
def c3allLine : List (List Nat × PyAst) :=
  [([0, 0, 1, 0], .Name ⟨2, 0, 2, 1⟩ "x"),
   ([0, 0, 1, 1], .Name ⟨2, 4, 2, 5⟩ "y"),
   ([0, 0, 1], .BinOp ⟨2, 0, 2, 5⟩ (.Name ⟨2, 0, 2, 1⟩ "x") (.Name ⟨2, 4, 2, 5⟩ "y"))]

/-- Witness for the amended C3 on the concrete two-line call. -/
theorem claim_C3_amended_witness :
    (find_call_nodes_on_line c3tree (fun _ => none) (.str "expect") 2 =
      fallbackLoop c3tree (fun _ => none) (.str "expect") c3allLine) ∧
    ([[0, 0], [0, 0], [0, 0]] : List (List Nat)) =
      c3allLine.filterMap
        (fun pn => fallbackPick c3tree (fun _ => none) (.str "expect") pn.1) := by
  have h := claim_C3_amended c3tree (fun _ => none) (.str "expect") 2 c3allLine []
    (by rfl) (by decide)
  exact ⟨h.2.1 rfl, h.2.2 [[0, 0], [0, 0], [0, 0]] (by rfl)⟩

/-! ## `deepish_copy` (claim C10) -/

mutual

/-- Modelled from the spec: does `copy.deepcopy` (an external library
facility) succeed on this value?  Deep copying fails on values reaching
an unclonable object — a live module, or a generator object. -/
def deepcopy_ok : Value → Bool
  | .vnone => true
  | .vbool _ => true
  | .vint _ => true
  | .vstr _ => true
  | .vfunc _ _ => true
  | .vmodule _ => false
  | .vgen _ => false
  | .vlist es => deepcopy_okL es
  | .vtuple es => deepcopy_okL es
  | .vset es => deepcopy_okL es
  | .vdict ps => deepcopy_okP ps

/-- All elements deep-copyable. -/
def deepcopy_okL : List Value → Bool
  | [] => true
  | x :: xs => deepcopy_ok x && deepcopy_okL xs

/-- All keys and values deep-copyable. -/
def deepcopy_okP : List (Value × Value) → Bool
  | [] => true
  | (k, v) :: xs => deepcopy_ok k && deepcopy_ok v && deepcopy_okP xs

end

/-- Modelled from the spec: does `copy.copy` (shallow copy) succeed?
It raises for modules (the source comment names them) and generator
objects. -/
def copy_ok : Value → Bool
  | .vmodule _ => false
  | .vgen _ => false
  | _ => true

mutual

/-- `deepish_copy(obj)` (optimism.py lines 2809-2864) on the pure value
model: try `copy.deepcopy`; on failure copy lists, dicts and sets
element-wise, but for tuples the source builds
`(deepish_copy(item, memo) for item in obj)` — a generator expression
that is returned as-is (never passed to `tuple(...)`), so the result is
a generator object still holding the uncopied items.  As a final resort
try `copy.copy`, then return the object itself.  The identity-keyed
`memo` dictionary has no observable effect in a pure tree model (every
sub-object is distinct) and is not represented; the external
`copy.deepcopy`/`copy.copy` collaborators are modelled by their success
predicates and return a structurally equal value on success. -/
def deepish_copy : Value → Value
  | .vlist es =>
    if deepcopy_ok (.vlist es) then .vlist es else .vlist (deepish_copyL es)
  | .vtuple es =>
    if deepcopy_ok (.vtuple es) then .vtuple es else .vgen es
  | .vdict ps =>
    if deepcopy_ok (.vdict ps) then .vdict ps else .vdict (deepish_copyP ps)
  | .vset es =>
    if deepcopy_ok (.vset es) then .vset es else .vset (deepish_copyL es)
  | other =>
    if deepcopy_ok other then other
    else if copy_ok other then other
    else other

/-- Element-wise `deepish_copy`. -/
def deepish_copyL : List Value → List Value
  | [] => []
  | x :: xs => deepish_copy x :: deepish_copyL xs

/-- Pair-wise `deepish_copy` of dict items. -/
def deepish_copyP : List (Value × Value) → List (Value × Value)
  | [] => []
  | (k, v) :: xs => (deepish_copy k, deepish_copy v) :: deepish_copyP xs

end

/-- C10 (code bug): on a tuple holding a live module — an input on which
`copy.deepcopy` raises — `deepish_copy` returns a generator object over
the original (uncopied) items rather than an element-wise-copied tuple,
because the tuple branch builds a generator expression and never applies
`tuple(...)` to it. -/
theorem claim_C10 :
    deepish_copy (.vtuple [.vmodule "m"]) = .vgen [.vmodule "m"] := by rfl

/-! ## The expression-source extractor -/

/-- Python `str.strip()`: drop leading and trailing whitespace. -/
def pstrip (t : Txt) : Txt :=
  ((t.dropWhile Char.isWhitespace).reverse.dropWhile Char.isWhitespace).reverse

/-- Is a line whitespace-only (ignored for the dedent margin)? -/
def isBlankLine (l : Txt) : Bool := l.all Char.isWhitespace

/-- Leading whitespace of a line. -/
def leadingWs (l : Txt) : Txt := l.takeWhile Char.isWhitespace

/-- Character-wise longest common prefix. -/
def commonPrefix : Txt → Txt → Txt
  | a :: as, b :: bs => if a = b then a :: commonPrefix as bs else []
  | _, _ => []

/-- The dedent margin: the common leading whitespace of all non-blank
lines. -/
def dedentMargin (lines : List Txt) : Option Txt :=
  lines.foldl
    (fun acc l =>
      if isBlankLine l then acc
      else
        match acc with
        | none => some (leadingWs l)
        | some m => some (commonPrefix m (leadingWs l)))
    none

/-- Drop the margin from a line when it starts with it. -/
def dropMargin (m l : Txt) : Txt := if m <+: l then l.drop m.length else l

/-- Modelled from the spec: `textwrap.dedent` (an external library
facility) — remove the longest common leading whitespace of the
non-blank lines from every line that carries it. -/
def dedent (t : Txt) : Txt :=
  match dedentMargin (splitAtNl t) with
  | none => t
  | some m => List.intercalate ['\n'] ((splitAtNl t).map (dropMargin m))

/-- Modelled from the spec: `ast.get_source_segment(src, node)` — the
parsing collaborator's exact-source-span facility: the source text
between the node's (lineno, col_offset) and (end_lineno,
end_col_offset), lines 1-based. -/
def get_source_segment (src : Txt) (node : PyAst) : Txt :=
  match nodeSpan node with
  | none => []
  | some sp =>
    let lines := splitLines src
    if sp.lineno = sp.end_lineno then
      (((lines.get? (sp.lineno - 1)).getD []).drop sp.col_offset).take
        (sp.end_col_offset - sp.col_offset)
    else
      let first := ((lines.get? (sp.lineno - 1)).getD []).drop sp.col_offset
      let mids := (lines.drop sp.lineno).take (sp.end_lineno - 1 - sp.lineno)
      let last := ((lines.get? (sp.end_lineno - 1)).getD []).take sp.end_col_offset
      List.intercalate ['\n'] (first :: (mids ++ [last]))

/-- Python `src.index(c, start)` (`none` when the character is absent —
Python would raise). -/
def strIndexFrom (src : Txt) (c : Char) (start : Nat) : Option Nat :=
  ((src.drop start).findIdx? (fun ch => ch = c)).map (· + start)

/-- Python slice `src[a:b]`. -/
def pslice (src : Txt) (a b : Nat) : Txt := (src.drop a).take (b - a)

/-- `get_expr_src(src, call_node)` (optimism.py lines 2728-2754), with
the `hasattr(ast, "get_source_segment")` capability check as the first
parameter: the dedented, stripped source text of the expression passed
as the first argument of the call.  The fallback path finds the opening
parenthesis after the call's start, its matching close, and the first
unbracketed comma.  `none` models an exception (no first argument, or a
failed reconstruction on malformed source). -/
def get_expr_src (hasSeg : Bool) (src : Txt) (call_node : PyAst) : Option Txt :=
  match call_node with
  | .Call sp _ args _ =>
    match args.head? with
    | none => none
    | some arg_expr =>
      if hasSeg then
        some (pstrip (dedent (get_source_segment src arg_expr)))
      else
        let start := get_src_index src sp.lineno sp.col_offset
        match strIndexFrom src '(' start with
        | none => none
        | some open_paren =>
          match find_closing_item src open_paren ('(', ')') with
          | none => none
          | some e1 =>
            let e2 :=
              match find_unbracketed_comma src (open_paren + 1) with
              | none => e1
              | some c => min e1 c
            some (pstrip (dedent (pslice src (open_paren + 1) e2)))
  | _ => none

/-- `isinstance(node, ast.Attribute)`. -/
def isAttrNode : PyAst → Bool
  | .Attribute _ _ _ => true
  | _ => false

/-- `get_ref_src(src, node)` (optimism.py lines 2757-2806), with the
`hasattr(ast, "get_source_segment")` capability check as the first
parameter: the source text of a name, attribute or subscript reference.
The fallback path counts the attribute nodes inside an attribute chain
(via `ast.walk`) to locate the final period, extends names to the end of
the identifier, and matches the bracket of a subscript from the start of
its (pre-3.9 `ast.Index`-wrapped) inner expression.  `none` models an
exception for node kinds the fallback does not handle. -/
def get_ref_src (hasSeg : Bool) (src : Txt) (node : PyAst) : Option Txt :=
  if hasSeg then some (get_source_segment src node)
  else
    match nodeSpan node with
    | none => none
    | some sp =>
      let start := get_src_index src sp.lineno sp.col_offset
      match node with
      | .Attribute _ _ _ =>
        let inner_period_count :=
          ((ast_walk node).filter (fun pn => isAttrNode pn.2)).length - 1
        match find_nth_attribute_period src start inner_period_count with
        | none => none
        | some dot =>
          let e := find_identifier_end src (dot + 1)
          some (pslice src start (e + 1))
      | .Name _ _ =>
        let e := find_identifier_end src start
        some (pslice src start (e + 1))
      | .Subscript _ _ sl =>
        match sl with
        | .IndexNode _ inner =>
          match nodeSpan inner with
          | none => none
          | some innersp =>
            let sub_start := get_src_index src innersp.lineno innersp.col_offset
            match find_closing_item src (sub_start - 1) ('[', ']') with
            | none => none
            | some e => some (pslice src start (e + 1))
        | _ => none
      | _ => none

/-! ## The context builder `get_my_context` -/

/-- The warnings `get_my_context` prints to `sys.stderr`. -/
inductive Warning where
  | unreadableSource
  | noCallNode
deriving DecidableEq, Repr

/-- The process-global `COMPLETED_PER_LINE` mapping (optimism.py line
177), threaded explicitly: function name → (filename, lineno) → count of
completed context builds for that site.  The two `setdefault` calls make
absent entries read as 0. -/
abbrev Counter := String → (String × Nat) → Nat

/-- `COMPLETED_PER_LINE[function_name][(filename, lineno)] += 1`
(optimism.py line 3382). -/
def bumpCounter (c : Counter) (name : String) (key : String × Nat) : Counter :=
  fun n k => if n = name ∧ k = key then c n k + 1 else c n k

/-- The inputs `get_my_context` obtains from its external collaborators
(stack inspection, the filesystem and the parser): the caller's
filename and line, the outcome of reading and parsing the caller's
source (`read = none`: the open/read raised; `some (src, none)`: read
but `ast.parse` raised; `some (src, some tree)`: read and parsed), the
caller's variable bindings, and the `DETAIL_LEVEL` configuration. -/
structure GmcInput where
  filename : Option String
  lineno : Nat
  read : Option (Txt × Option PyAst)
  frame : Frame
  detail : Int

/-- The context dictionary assembled by `get_my_context` (its `expr`
slot, an AST node, is identified by `exprPath` below the parsed tree;
`callPath` additionally records which candidate call was selected —
model bookkeeping determined by the run). -/
structure ContextRec where
  file : String
  line : Nat
  src : Txt
  callPath : List Nat
  exprPath : List Nat
  expr_src : Txt
  values : List (Txt × Value)
  relevant : List Txt

/-- The result of `get_my_context`: a full context, a location-only
dictionary (just the `file` and `line` keys), or an uncaught
exception. -/
inductive GmcResult where
  | location (file : Option String) (line : Nat)
  | full (ctx : ContextRec)
  | error

/-- `function_name` as computed at optimism.py lines 3308-3311: the
`__name__` of a `types.FunctionType` argument, or the argument itself
when it is a string. -/
def gmcName : FuncOrName → String
  | .fn name _ => name
  | .str s => s

/-- `isinstance(node, ast.Call)` with all the components extracted. -/
def asCall : PyAst → Option (Span × PyAst × List PyAst × List PyAst)
  | .Call sp f a k => some (sp, f, a, k)
  | _ => none

/-- Is the node a potential variable reference (Attribute, Subscript or
Name — optimism.py lines 3406-3409)? -/
def isRefNode : PyAst → Bool
  | .Attribute _ _ _ => true
  | .Subscript _ _ _ => true
  | .Name _ _ => true
  | _ => false

/-- The loop at optimism.py lines 3403-3419: walk the argument subtree
(breadth-first `ast.walk`); for each reference node whose source text is
not yet a key of the values dictionary, evaluate it in the caller frame,
store a deepish copy, and mark the key relevant when this first
occurrence is not inside a call's `func` slot.  `none` models an
exception escaping from the evaluation. -/
def valuesLoop (src : Txt) (argNode : PyAst) (frame : Frame) :
    List (List Nat × PyAst) → List (Txt × Value) → List Txt →
    Option (List (Txt × Value) × List Txt)
  | [], vals, rel => some (vals, rel)
  | (p, n) :: rest, vals, rel =>
    if isRefNode n then
      match get_ref_src AST_HAS_GET_SOURCE_SEGMENT src n with
      | none => none
      | some key =>
        if vals.any (fun kv => kv.1 = key) then
          valuesLoop src argNode frame rest vals rel
        else
          match evaluate_in_context n frame with
          | none => none
          | some v =>
            valuesLoop src argNode frame rest (vals ++ [(key, deepish_copy v)])
              (if ¬ is_inside_call_func argNode p then rel ++ [key] else rel)
    else valuesLoop src argNode frame rest vals rel

/-- The tail of `get_my_context` after a candidate has been selected and
the counter bumped (optimism.py lines 3384-3421): pick the first
argument, extract its source, walk it for values and relevance, and
assemble the context record.  The counter is not part of this stage: in
the source the global counter keeps its incremented value even when a
later step raises. -/
def gmcFinish (src : Txt) (filename : String) (lineno : Nat) (frame : Frame)
    (tree : PyAst) (matchPath : List Nat) : GmcResult × List Warning :=
  match (subnode tree matchPath).bind asCall with
  | none => (.error, [])
  | some (csp, cfunc, cargs, ckws) =>
    match cargs.head? with
    | none => (.error, [])
    | some arg_expr =>
      match get_expr_src AST_HAS_GET_SOURCE_SEGMENT src
          (.Call csp cfunc cargs ckws) with
      | none => (.error, [])
      | some expr_src =>
        match valuesLoop src arg_expr frame (ast_walk arg_expr) [] [] with
        | none => (.error, [])
        | some (vals, rel) =>
          (.full ⟨filename, lineno, src, matchPath, matchPath ++ [1],
            expr_src, vals, rel⟩, [])

/-- `get_my_context(function_or_name)` (optimism.py lines 3279-3425),
with the external collaborators' outcomes supplied in `inp` and the
process-global counter threaded explicitly.  Parent assignment
(`assign_parents`) is implicit in the path representation of node
identity; note that the source re-roots parents inside the argument
subtree (line 3387), which is why `valuesLoop` climbs only within the
argument node. -/
def get_my_context (function_or_name : FuncOrName) (inp : GmcInput)
    (counter : Counter) : GmcResult × Counter × List Warning :=
  let function_name := gmcName function_or_name
  match inp.filename with
  | none => (.location none inp.lineno, counter, [])
  | some filename =>
    match inp.read with
    | none =>
      (.location (some filename) inp.lineno, counter,
        if 2 ≤ inp.detail then [.unreadableSource] else [])
    | some (src, parsed) =>
      match parsed with
      | none => (.error, counter, [])
      | some tree =>
        match find_call_nodes_on_line tree inp.frame function_or_name
            inp.lineno with
        | none => (.error, counter, [])
        | some candidates =>
          if hlen : candidates.length = 0 then
            (.location (some filename) inp.lineno, counter, [.noCallNode])
          else
            let prev := counter function_name (filename, inp.lineno)
            let matchPath := candidates.get
              ⟨prev % candidates.length, Nat.mod_lt _ (Nat.pos_of_ne_zero hlen)⟩
            let counter2 := bumpCounter counter function_name (filename, inp.lineno)
            let finish := gmcFinish src filename inp.lineno inp.frame tree matchPath
            (finish.1, counter2, finish.2)

/-! ## Claim C8: degraded contexts instead of exceptions -/

/-- C8: `get_my_context` does not raise for an unreadable source or an
unresolvable call site.  With no filename it returns the location-only
dictionary with no warning; with a filename whose read raised it returns
the location-only dictionary, warning exactly when `DETAIL_LEVEL ≥ 2`;
and when both search passes find zero candidate calls it prints one
warning and returns the location-only dictionary.  In all three cases
the counter is untouched. -/
theorem claim_C8 (fn : FuncOrName) (inp : GmcInput) (counter : Counter) :
    (inp.filename = none →
      get_my_context fn inp counter = (.location none inp.lineno, counter, [])) ∧
    (∀ f, inp.filename = some f → inp.read = none →
      get_my_context fn inp counter =
        (.location (some f) inp.lineno, counter,
          if 2 ≤ inp.detail then [.unreadableSource] else [])) ∧
    (∀ f src tree, inp.filename = some f → inp.read = some (src, some tree) →
      find_call_nodes_on_line tree inp.frame fn inp.lineno = some [] →
      get_my_context fn inp counter =
        (.location (some f) inp.lineno, counter, [.noCallNode])) := by
  refine ⟨?_, ?_, ?_⟩
  · intro h
    simp only [get_my_context, h]
  · intro f hf hr
    simp only [get_my_context, hf, hr]
  · intro f src tree hf hr hfind
    simp only [get_my_context, hf, hr, hfind]
    rfl

/-- An all-zero counter (the initial `COMPLETED_PER_LINE`). -/
def zeroCounter : Counter := fun _ _ => 0

/-- Input with no filename (a frame without `__file__` or a code object
name). -/
def c8inp1 : GmcInput := ⟨none, 5, none, fun _ => none, 0⟩

/-- Input whose source read raised. -/
def c8inp2 : GmcInput := ⟨some "m.py", 5, none, fun _ => none, 0⟩

/-- Input whose parsed source contains no call on the caller's line. -/
def c8inp3 : GmcInput := ⟨some "m.py", 9, some ([], some (.Module [])), fun _ => none, 0⟩

/-- Witness for C8 at the three concrete degraded inputs. -/
theorem claim_C8_witness :
    (get_my_context (.str "expect") c8inp1 zeroCounter =
      (.location none 5, zeroCounter, [])) ∧
    (get_my_context (.str "expect") c8inp2 zeroCounter =
      (.location (some "m.py") 5, zeroCounter,
        if 2 ≤ (0 : Int) then [.unreadableSource] else [])) ∧
    (get_my_context (.str "expect") c8inp3 zeroCounter =
      (.location (some "m.py") 9, zeroCounter, [.noCallNode])) :=
  ⟨(claim_C8 (.str "expect") c8inp1 zeroCounter).1 rfl,
   (claim_C8 (.str "expect") c8inp2 zeroCounter).2.1 "m.py" rfl rfl,
   (claim_C8 (.str "expect") c8inp3 zeroCounter).2.2 "m.py" [] (.Module [])
     rfl rfl rfl⟩

/-! ## Claims C1 and C9: the per-line round-robin counter -/

/-- On a successful resolution (readable parsed source, at least one
candidate), a context build replaces the counter by its bump at the
(function name, filename, line) key — regardless of whether the later
argument-extraction stage succeeds. -/
theorem gmc_step_counter (fn : FuncOrName) (inp : GmcInput) (c : Counter)
    (f : String) (src : Txt) (tree : PyAst) (cands : List (List Nat))
    (hf : inp.filename = some f) (hr : inp.read = some (src, some tree))
    (hfind : find_call_nodes_on_line tree inp.frame fn inp.lineno = some cands)
    (hne : cands ≠ []) :
    (get_my_context fn inp c).2.1 = bumpCounter c (gmcName fn) (f, inp.lineno) := by
  simp only [get_my_context, hf, hr, hfind]
  rw [dif_neg (fun h => hne (List.length_eq_zero.mp h))]

/-- The record in a `.full` result of `gmcFinish` carries the selected
candidate path. -/
theorem gmcFinish_callPath (src : Txt) (filename : String) (lineno : Nat)
    (frame : Frame) (tree : PyAst) (matchPath : List Nat) (ctx : ContextRec)
    (h : (gmcFinish src filename lineno frame tree matchPath).1 = .full ctx) :
    ctx.callPath = matchPath := by
  simp only [gmcFinish] at h
  match hc : (subnode tree matchPath).bind asCall with
  | none => simp only [hc] at h; exact absurd h (by simp)
  | some (csp, cfunc, cargs, ckws) =>
    simp only [hc] at h
    match ha : cargs.head? with
    | none => simp only [ha] at h; exact absurd h (by simp)
    | some arg_expr =>
      simp only [ha] at h
      match he : get_expr_src AST_HAS_GET_SOURCE_SEGMENT src
          (.Call csp cfunc cargs ckws) with
      | none => simp only [he] at h; exact absurd h (by simp)
      | some expr_src =>
        simp only [he] at h
        match hv : valuesLoop src arg_expr frame (ast_walk arg_expr) [] [] with
        | none => simp only [hv] at h; exact absurd h (by simp)
        | some (vals, rel) =>
          simp only [hv, GmcResult.full.injEq] at h
          rw [← h]

/-- On a successful resolution, a `.full` result's selected call is the
candidate at index (previous count mod number of candidates). -/
theorem gmc_step_full (fn : FuncOrName) (inp : GmcInput) (c : Counter)
    (f : String) (src : Txt) (tree : PyAst) (cands : List (List Nat))
    (hf : inp.filename = some f) (hr : inp.read = some (src, some tree))
    (hfind : find_call_nodes_on_line tree inp.frame fn inp.lineno = some cands)
    (hne : cands ≠ []) (ctx : ContextRec)
    (hfull : (get_my_context fn inp c).1 = .full ctx) :
    cands.get? (c (gmcName fn) (f, inp.lineno) % cands.length) =
      some ctx.callPath := by
  simp only [get_my_context, hf, hr, hfind] at hfull
  rw [dif_neg (fun h => hne (List.length_eq_zero.mp h))] at hfull
  have := gmcFinish_callPath _ _ _ _ _ _ _ hfull
  rw [this, List.get?_eq_get]

/-- Iterated context builds with the same inputs, threading the
counter. -/
def gmc_iter (fn : FuncOrName) (inp : GmcInput) (counter : Counter) : Nat → Counter
  | 0 => counter
  | n + 1 => (get_my_context fn inp (gmc_iter fn inp counter n)).2.1

/-- C1: on a site where `find_call_nodes_on_line` finds `k ≥ 1`
candidates, starting from a counter reading 0 at the site's key:
(i) after `n` builds the key's counter reads exactly `n` (each build
adds exactly 1); (ii) the `n`-th build (counted from 0), when it returns
a full context, selects candidate `n mod k`; (iii) no build ever changes
the counter at any other key; (iv) with `k = 1`, any two full builds
select the same call node (while (i) shows the counter still
advances). -/
theorem claim_C1 (fn : FuncOrName) (inp : GmcInput) (c0 : Counter)
    (f : String) (src : Txt) (tree : PyAst) (cands : List (List Nat))
    (hf : inp.filename = some f) (hr : inp.read = some (src, some tree))
    (hfind : find_call_nodes_on_line tree inp.frame fn inp.lineno = some cands)
    (hne : cands ≠ [])
    (h0 : c0 (gmcName fn) (f, inp.lineno) = 0) :
    (∀ n, gmc_iter fn inp c0 n (gmcName fn) (f, inp.lineno) = n) ∧
    (∀ n ctx, (get_my_context fn inp (gmc_iter fn inp c0 n)).1 = .full ctx →
      cands.get? (n % cands.length) = some ctx.callPath) ∧
    (∀ n name key, ¬ (name = gmcName fn ∧ key = (f, inp.lineno)) →
      gmc_iter fn inp c0 n name key = c0 name key) ∧
    (cands.length = 1 → ∀ n m ctx1 ctx2,
      (get_my_context fn inp (gmc_iter fn inp c0 n)).1 = .full ctx1 →
      (get_my_context fn inp (gmc_iter fn inp c0 m)).1 = .full ctx2 →
      ctx1.callPath = ctx2.callPath) := by
  have hstep : ∀ c : Counter, (get_my_context fn inp c).2.1 =
      bumpCounter c (gmcName fn) (f, inp.lineno) :=
    fun c => gmc_step_counter fn inp c f src tree cands hf hr hfind hne
  have hiter : ∀ n, gmc_iter fn inp c0 n (gmcName fn) (f, inp.lineno) = n := by
    intro n
    induction n with
    | zero => exact h0
    | succ m ih =>
      show (get_my_context fn inp (gmc_iter fn inp c0 m)).2.1 _ _ = m + 1
      rw [hstep, bumpCounter]
      simp [ih]
  have hsel : ∀ n ctx, (get_my_context fn inp (gmc_iter fn inp c0 n)).1 = .full ctx →
      cands.get? (n % cands.length) = some ctx.callPath := by
    intro n ctx hfull
    have := gmc_step_full fn inp (gmc_iter fn inp c0 n) f src tree cands
      hf hr hfind hne ctx hfull
    rw [hiter n] at this
    exact this
  refine ⟨hiter, hsel, ?_, ?_⟩
  · intro n name key hne2
    induction n with
    | zero => rfl
    | succ m ih =>
      show (get_my_context fn inp (gmc_iter fn inp c0 m)).2.1 _ _ = c0 name key
      rw [hstep, bumpCounter]
      simp only [if_neg hne2]
      exact ih
  · intro h1 n m ctx1 ctx2 hc1 hc2
    have e1 := hsel n ctx1 hc1
    have e2 := hsel m ctx2 hc2
    rw [h1, Nat.mod_one] at e1
    rw [h1, Nat.mod_one] at e2
    rw [e1] at e2
    injection e2

/-- C9: when `get_my_context` is passed a function object, the counter
key is the function's `__name__`: a successful build with the object
`(f_name, i)` advances the counter that a build keyed by any other
function object `(f_name, j)` with the same `__name__` would read, and
leaves every differently-named key unchanged. -/
theorem claim_C9 (f_name : String) (i j : Nat) (hij : i ≠ j) (inp : GmcInput)
    (c : Counter) (fi : String) (src : Txt) (tree : PyAst)
    (cands : List (List Nat))
    (hf : inp.filename = some fi) (hr : inp.read = some (src, some tree))
    (hfind : find_call_nodes_on_line tree inp.frame (.fn f_name i) inp.lineno =
      some cands)
    (hne : cands ≠ []) :
    ((get_my_context (.fn f_name i) inp c).2.1 (gmcName (.fn f_name j))
        (fi, inp.lineno) =
      c (gmcName (.fn f_name i)) (fi, inp.lineno) + 1) ∧
    (∀ other, other ≠ f_name →
      (get_my_context (.fn f_name i) inp c).2.1 other (fi, inp.lineno) =
        c other (fi, inp.lineno)) := by
  have hstep := gmc_step_counter (.fn f_name i) inp c fi src tree cands
    hf hr hfind hne
  constructor
  · rw [hstep, bumpCounter]
    simp [gmcName]
  · intro other hother
    rw [hstep, bumpCounter]
    simp [gmcName, hother]

/-- Source text of the one-line double-call scenario
`expect(a, 1) and expect(b, 2)`. -/
def c1src : Txt := "expect(a, 1) and expect(b, 2)".toList

/-- Embedding of `expect(a, 1) and expect(b, 2)` (two candidate calls on
one line, joined by a boolean operator). -/
def c1tree : PyAst :=
  .Module [.ExprS ⟨1, 0, 1, 29⟩ (.BoolOp ⟨1, 0, 1, 29⟩
    [.Call ⟨1, 0, 1, 12⟩ (.Name ⟨1, 0, 1, 6⟩ "expect")
      [.Name ⟨1, 7, 1, 8⟩ "a", .Constant ⟨1, 10, 1, 11⟩ (.cint 1)] [],
     .Call ⟨1, 17, 1, 29⟩ (.Name ⟨1, 17, 1, 23⟩ "expect")
      [.Name ⟨1, 24, 1, 25⟩ "b", .Constant ⟨1, 27, 1, 28⟩ (.cint 2)] []])]

/-- The caller frame for the double-call scenario. -/
def c1frame : Frame := fun s =>
  if s = "a" then some (.vint 3) else if s = "b" then some (.vint 4) else none

/-- Collaborator inputs for the double-call scenario. -/
def c1inp : GmcInput := ⟨some "m.py", 1, some (c1src, some c1tree), c1frame, 0⟩

/-- The context assembled by the first build of the double-call scenario
(the call over `a`). -/
def c1ctx0 : ContextRec :=
  ⟨"m.py", 1, c1src, [0, 0, 0], [0, 0, 0, 1], ['a'], [(['a'], .vint 3)], [['a']]⟩

/-- The context assembled by the second build (the call over `b`). -/
def c1ctx1 : ContextRec :=
  ⟨"m.py", 1, c1src, [0, 0, 1], [0, 0, 1, 1], ['b'], [(['b'], .vint 4)], [['b']]⟩

/-- Witness for C1 on the double-call scenario: two successive builds
select the first and then the second call, and the counter reads 2 after
two builds while other keys stay at 0. -/
theorem claim_C1_witness :
    (gmc_iter (.str "expect") c1inp zeroCounter 2 "expect" ("m.py", 1) = 2) ∧
    (([[0, 0, 0], [0, 0, 1]] : List (List Nat)).get? (0 % 2) =
      some c1ctx0.callPath) ∧
    (([[0, 0, 0], [0, 0, 1]] : List (List Nat)).get? (1 % 2) =
      some c1ctx1.callPath) ∧
    (gmc_iter (.str "expect") c1inp zeroCounter 2 "trace" ("m.py", 1) =
      zeroCounter "trace" ("m.py", 1)) := by
  have h := claim_C1 (.str "expect") c1inp zeroCounter "m.py" c1src c1tree
    [[0, 0, 0], [0, 0, 1]] rfl rfl (by rfl) (by decide) rfl
  exact ⟨h.1 2, h.2.1 0 c1ctx0 (by rfl), h.2.1 1 c1ctx1 (by rfl),
    h.2.2.1 2 "trace" ("m.py", 1) (by decide)⟩

/-- Source text for the identity-matched call scenario `expect(1, 2)`. -/
def c9src : Txt := "expect(1, 2)".toList

/-- Embedding of `expect(1, 2)`. -/
def c9tree : PyAst :=
  .Module [.ExprS ⟨1, 0, 1, 12⟩
    (.Call ⟨1, 0, 1, 12⟩ (.Name ⟨1, 0, 1, 6⟩ "expect")
      [.Constant ⟨1, 7, 1, 8⟩ (.cint 1), .Constant ⟨1, 10, 1, 11⟩ (.cint 2)] [])]

/-- Frame binding `expect` to the function object with identity 7. -/
def c9frame : Frame := fun s =>
  if s = "expect" then some (.vfunc "expect" 7) else none

/-- Collaborator inputs for the identity-matched scenario. -/
def c9inp : GmcInput := ⟨some "m.py", 1, some (c9src, some c9tree), c9frame, 0⟩

/-- Witness for C9: a build passing the function object with identity 7
advances the counter read under the name of the distinct function object
with identity 8 (same `__name__`), and leaves other names unchanged. -/
theorem claim_C9_witness :
    ((get_my_context (.fn "expect" 7) c9inp zeroCounter).2.1
        (gmcName (.fn "expect" 8)) ("m.py", 1) =
      zeroCounter (gmcName (.fn "expect" 7)) ("m.py", 1) + 1) ∧
    ((get_my_context (.fn "expect" 7) c9inp zeroCounter).2.1 "trace" ("m.py", 1) =
      zeroCounter "trace" ("m.py", 1)) := by
  have h := claim_C9 "expect" 7 8 (by decide) c9inp zeroCounter "m.py" c9src
    c9tree [[0, 0]] rfl rfl (by rfl) (by decide)
  exact ⟨h.1, h.2 "trace" (by decide)⟩

/-! ## Claim C2: relevance marking -/

/-- The first reference node in a walk list whose extracted source text
is the given key. -/
def firstRefOcc (src : Txt) (lst : List (List Nat × PyAst)) (key : Txt) :
    Option (List Nat × PyAst) :=
  lst.find? (fun pn => isRefNode pn.2 &&
    (get_ref_src AST_HAS_GET_SOURCE_SEGMENT src pn.2 == some key))

/-- Characterisation of the relevance marking in the values loop: a key
ends up relevant exactly when it was already relevant, or it is not yet
a values key and the first reference occurrence of that key in the
remaining walk list is not inside a call's `func` slot. -/
theorem valuesLoop_relevant_iff (src : Txt) (argNode : PyAst) (frame : Frame) :
    ∀ (lst : List (List Nat × PyAst)) (vals : List (Txt × Value)) (rel : List Txt)
      (out : List (Txt × Value) × List Txt),
      valuesLoop src argNode frame lst vals rel = some out →
      ∀ key, key ∈ out.2 ↔
        (key ∈ rel ∨
          (vals.any (fun kv => kv.1 = key) = false ∧
            ∃ pn, firstRefOcc src lst key = some pn ∧
              is_inside_call_func argNode pn.1 = false)) := by
  intro lst
  induction lst with
  | nil =>
    intro vals rel out h key
    simp only [valuesLoop, Option.some.injEq] at h
    subst h
    simp only [firstRefOcc, List.find?_nil]
    constructor
    · exact Or.inl
    · rintro (hrel | ⟨-, pn, hpn, -⟩)
      · exact hrel
      · exact Option.noConfusion hpn
  | cons hd rest ih =>
    obtain ⟨p, n⟩ := hd
    intro vals rel out h key
    by_cases href : isRefNode n = true
    · rw [valuesLoop, if_pos href] at h
      match hk : get_ref_src AST_HAS_GET_SOURCE_SEGMENT src n with
      | none => simp only [hk] at h; exact absurd h (by simp)
      | some key0 =>
        simp only [hk] at h
        by_cases hin : (vals.any fun kv => kv.1 = key0) = true
        · rw [if_pos hin] at h
          by_cases hkk : key0 = key
          · subst hkk
            have hfalse : ¬ ((vals.any fun kv => kv.1 = key0) = false) := by
              rw [hin]; simp
            constructor
            · intro hmem
              rcases (ih vals rel out h key0).mp hmem with hrel | ⟨hf, -⟩
              · exact Or.inl hrel
              · exact absurd hf hfalse
            · rintro (hrel | ⟨hf, -⟩)
              · exact (ih vals rel out h key0).mpr (Or.inl hrel)
              · exact absurd hf hfalse
          · have hfo : firstRefOcc src ((p, n) :: rest) key =
                firstRefOcc src rest key := by
              rw [firstRefOcc, List.find?_cons_of_neg, firstRefOcc]
              simp [href, hk, hkk]
            rw [hfo]
            exact ih vals rel out h key
        · rw [if_neg hin] at h
          match hv : evaluate_in_context n frame with
          | none => simp only [hv] at h; exact absurd h (by simp)
          | some v =>
            simp only [hv] at h
            by_cases hkk : key0 = key
            · subst hkk
              have hin2 : (vals.any fun kv => kv.1 = key0) = false := by
                revert hin; cases vals.any fun kv => kv.1 = key0 <;> simp
              have hfo : firstRefOcc src ((p, n) :: rest) key0 = some (p, n) :=
                List.find?_cons_of_pos _ (by simp [href, hk])
              have hany2 : ((vals ++ [(key0, deepish_copy v)]).any
                  fun kv => kv.1 = key0) = true := by simp
              have hiff := ih _ _ out h key0
              have step : key0 ∈ out.2 ↔
                  key0 ∈ (if ¬ is_inside_call_func argNode p = true
                    then rel ++ [key0] else rel) := by
                constructor
                · intro hm
                  rcases hiff.mp hm with hrel | ⟨hf, -⟩
                  · exact hrel
                  · rw [hany2] at hf; exact Bool.noConfusion hf
                · intro hm
                  exact hiff.mpr (Or.inl hm)
              rw [step, hfo]
              by_cases hi : is_inside_call_func argNode p = true
              · simp [hi, hin2]
              · simp [hi, hin2]
            · have hfo : firstRefOcc src ((p, n) :: rest) key =
                  firstRefOcc src rest key := by
                rw [firstRefOcc, List.find?_cons_of_neg, firstRefOcc]
                simp [href, hk, hkk]
              rw [hfo]
              have hiff := ih _ _ out h key
              have hany2 : ((vals ++ [(key0, deepish_copy v)]).any
                  fun kv => kv.1 = key) = (vals.any fun kv => kv.1 = key) := by
                simp [hkk]
              rw [hany2] at hiff
              have hrel2 : key ∈ (if ¬ is_inside_call_func argNode p = true
                  then rel ++ [key0] else rel) ↔ key ∈ rel := by
                split
                · constructor
                  · intro hm
                    rcases List.mem_append.mp hm with hm2 | hm2
                    · exact hm2
                    · exact absurd (List.mem_singleton.mp hm2).symm hkk
                  · exact fun hm => List.mem_append.mpr (Or.inl hm)
                · exact Iff.rfl
              rw [hrel2] at hiff
              exact hiff
    · rw [valuesLoop, if_neg href] at h
      have hfo : firstRefOcc src ((p, n) :: rest) key =
          firstRefOcc src rest key := by
        rw [firstRefOcc, List.find?_cons_of_neg, firstRefOcc]
        simp [href]
      rw [hfo]
      exact ih vals rel out h key

/-- Source text of scenario C, `expect(f(y), z)`. -/
def c2src : Txt := "expect(f(y), z)".toList

/-- The argument subtree of scenario C: the nested call `f(y)`. -/
def c2arg : PyAst :=
  .Call ⟨1, 7, 1, 11⟩ (.Name ⟨1, 7, 1, 8⟩ "f") [.Name ⟨1, 9, 1, 10⟩ "y"] []

/-- Embedding of `expect(f(y), z)`. -/
def c2tree : PyAst :=
  .Module [.ExprS ⟨1, 0, 1, 15⟩
    (.Call ⟨1, 0, 1, 15⟩ (.Name ⟨1, 0, 1, 6⟩ "expect")
      [c2arg, .Name ⟨1, 13, 1, 14⟩ "z"] [])]

/-- Frame for scenario C: `f` a function object, `y` and `z` plain
values. -/
def c2frame : Frame := fun s =>
  if s = "f" then some (.vfunc "f" 42)
  else if s = "y" then some (.vint 7)
  else if s = "z" then some (.vint 9)
  else none

/-- Collaborator inputs for scenario C. -/
def c2inp : GmcInput := ⟨some "m.py", 1, some (c2src, some c2tree), c2frame, 0⟩

/-- The context assembled for scenario C: `expr_src` is `f(y)`, the
values mapping binds `f` to the function object and `y` to its value,
and only `y` is relevant. -/
def c2ctx : ContextRec :=
  ⟨"m.py", 1, c2src, [0, 0], [0, 0, 1], "f(y)".toList,
    [(['f'], .vfunc "f" 42), (['y'], .vint 7)], [['y']]⟩

/-- C2, amended: a reference source text is marked relevant exactly when
the first reference node carrying that text in the breadth-first walk of
the argument subtree is not inside a nested call's callee (`func`)
position — relevance is decided by the first occurrence only.  And in
scenario C, `expect(f(y), z)`: `expr_src` is `f(y)`, values maps `f` to
the function object and `y` to its value, `f` is not relevant and `y`
is relevant. -/
theorem claim_C2 :
    (∀ (src : Txt) (argNode : PyAst) (frame : Frame)
        (out : List (Txt × Value) × List Txt),
      valuesLoop src argNode frame (ast_walk argNode) [] [] = some out →
      ∀ key, key ∈ out.2 ↔
        ∃ pn, firstRefOcc src (ast_walk argNode) key = some pn ∧
          is_inside_call_func argNode pn.1 = false) ∧
    (get_my_context (.str "expect") c2inp zeroCounter).1 = .full c2ctx := by
  constructor
  · intro src argNode frame out h key
    have := valuesLoop_relevant_iff src argNode frame (ast_walk argNode) [] []
      out h key
    simpa using this
  · rfl

/-- Witness for C2 at scenario C's keys: `y` is relevant because its
first (and only) occurrence is outside any callee position; the walk
data is evaluated concretely. -/
theorem claim_C2_witness :
    (['y'] ∈ c2ctx.relevant ↔
      ∃ pn, firstRefOcc c2src (ast_walk c2arg) ['y'] = some pn ∧
        is_inside_call_func c2arg pn.1 = false) ∧
    (get_my_context (.str "expect") c2inp zeroCounter).1 = .full c2ctx :=
  ⟨claim_C2.1 c2src c2arg c2frame (c2ctx.values, c2ctx.relevant) (by rfl) ['y'],
   claim_C2.2⟩

/-- Source text of the counterexample scenario, `expect(f(f), z)`. -/
def c2xsrc : Txt := "expect(f(f), z)".toList

/-- The argument subtree of the counterexample: the nested call `f(f)`,
in which the text `f` occurs both as the callee and as an argument. -/
def c2xarg : PyAst :=
  .Call ⟨1, 7, 1, 11⟩ (.Name ⟨1, 7, 1, 8⟩ "f") [.Name ⟨1, 9, 1, 10⟩ "f"] []

/-- Embedding of `expect(f(f), z)`. -/
def c2xtree : PyAst :=
  .Module [.ExprS ⟨1, 0, 1, 15⟩
    (.Call ⟨1, 0, 1, 15⟩ (.Name ⟨1, 0, 1, 6⟩ "expect")
      [c2xarg, .Name ⟨1, 13, 1, 14⟩ "z"] [])]

/-- Collaborator inputs for the counterexample scenario. -/
def c2xinp : GmcInput := ⟨some "m.py", 1, some (c2xsrc, some c2xtree), c2frame, 0⟩

/-- The context the code assembles for `expect(f(f), z)`: the relevant
set is empty. -/
def c2xctx : ContextRec :=
  ⟨"m.py", 1, c2xsrc, [0, 0], [0, 0, 1], "f(f)".toList,
    [(['f'], .vfunc "f" 42)], []⟩

/-- C2 counterexample: in `expect(f(f), z)` the reference text `f` has an
occurrence (the inner argument, path `[1]` in the argument subtree) that
is not inside any callee position, yet the assembled context marks
nothing relevant — because the first walked occurrence of `f` is the
callee and later occurrences are skipped.  This contradicts the claim
that every reference with at least one occurrence outside a callee
position is in the relevant set. -/
theorem claim_C2_counterexample :
    (get_my_context (.str "expect") c2xinp zeroCounter).1 = .full c2xctx ∧
    c2xctx.relevant = [] ∧
    c2xctx.values = [(['f'], .vfunc "f" 42)] ∧
    subnode c2xarg [1] = some (.Name ⟨1, 9, 1, 10⟩ "f") ∧
    get_ref_src AST_HAS_GET_SOURCE_SEGMENT c2xsrc (.Name ⟨1, 9, 1, 10⟩ "f") =
      some ['f'] ∧
    is_inside_call_func c2xarg [1] = false :=
  ⟨rfl, rfl, rfl, rfl, rfl, rfl⟩

/-! ## Claim C6: the two extraction paths agree

Infrastructure: on a quote-free stretch of source the scanner simply
enumerates the characters, so the pair streams decompose. -/

/-- Enumeration of a text with indices starting at `i`. -/
def enumIdx : Nat → Txt → List (Nat × Char)
  | _, [] => []
  | i, c :: rest => (i, c) :: enumIdx (i + 1) rest

theorem enumIdx_append (i : Nat) (a b : Txt) :
    enumIdx i (a ++ b) = enumIdx i a ++ enumIdx (i + a.length) b := by
  induction a generalizing i with
  | nil => simp [enumIdx]
  | cons c rest ih =>
    rw [List.cons_append]
    rw [show enumIdx i (c :: (rest ++ b)) = (i, c) :: enumIdx (i + 1) (rest ++ b)
      from rfl]
    rw [ih (i + 1)]
    rw [show enumIdx i (c :: rest) = (i, c) :: enumIdx (i + 1) rest from rfl]
    simp only [List.cons_append, List.length_cons]
    rw [show i + (rest.length + 1) = i + 1 + rest.length by omega]

theorem countc_enumIdx (c : Char) (i : Nat) (t : Txt) :
    countc c (enumIdx i t) = t.count c := by
  induction t generalizing i with
  | nil => rfl
  | cons ch rest ih =>
    by_cases h : ch = c
    · subst h
      rw [enumIdx, countc_cons_self, ih, List.count_cons_self]
    · rw [enumIdx, countc_cons_ne h, ih, List.count_cons_of_ne (Ne.symm h)]

/-- A prefix of an enumeration is the enumeration of a prefix. -/
theorem prefix_enumIdx {i : Nat} {t : Txt} {p : List (Nat × Char)}
    (h : p <+: enumIdx i t) : ∃ m, p = enumIdx i (t.take m) := by
  induction t generalizing i p with
  | nil =>
    rw [enumIdx] at h
    rw [List.prefix_nil.mp h]
    exact ⟨0, rfl⟩
  | cons c rest ih =>
    rw [enumIdx] at h
    rcases prefix_cons_cases h with rfl | ⟨q, rfl, hq⟩
    · exact ⟨0, rfl⟩
    · obtain ⟨m, rfl⟩ := ih hq
      exact ⟨m + 1, rfl⟩

/-- On a position holding a character that is not a quotation mark, with
no quote open, the scanner yields the character and moves on. -/
theorem uqe_cons_clean (src : Txt) (i : Nat) (h : i < src.length)
    (h1 : src.get ⟨i, h⟩ ≠ dq) (h2 : src.get ⟨i, h⟩ ≠ sq) :
    unquoted_enumerate src i = (i, src.get ⟨i, h⟩) :: unquoted_enumerate src (i + 1) := by
  have hf : src.length + 1 - i = (src.length - i) + 1 := by omega
  have hf2 : src.length + 1 - (i + 1) = src.length - i := by omega
  rw [unquoted_enumerate, unquoted_enumerate, hf, hf2, uqeFrom, dif_pos h]
  rw [if_neg (by simp)]
  rw [if_neg (fun hor => hor.elim h1 h2)]
  rw [if_neg (by simp)]

/-- Scanning from the start of a quote-free stretch enumerates it and
continues after it. -/
theorem uqe_clean_decomp (pre t post : Txt)
    (hclean : ∀ ch ∈ t, ch ≠ dq ∧ ch ≠ sq) :
    unquoted_enumerate (pre ++ t ++ post) pre.length =
      enumIdx pre.length t ++
        unquoted_enumerate (pre ++ t ++ post) (pre.length + t.length) := by
  induction t generalizing pre with
  | nil => simp [enumIdx]
  | cons c rest ih =>
    have hlen : pre.length < (pre ++ (c :: rest) ++ post).length := by
      simp
    have hget : (pre ++ (c :: rest) ++ post).get ⟨pre.length, hlen⟩ = c := by
      have : (pre ++ (c :: rest) ++ post).get? pre.length = some c := by
        rw [List.append_assoc, List.get?_append_right (le_refl _)]
        simp
      rw [List.get?_eq_get hlen] at this
      injection this
    have hc := hclean c (List.mem_cons_self _ _)
    rw [uqe_cons_clean _ _ hlen (by rw [hget]; exact hc.1) (by rw [hget]; exact hc.2)]
    rw [hget]
    have hre : pre ++ (c :: rest) ++ post = (pre ++ [c]) ++ rest ++ post := by
      simp
    have ih2 := ih (pre ++ [c]) (fun ch hch => hclean ch (List.mem_cons_of_mem _ hch))
    rw [hre]
    have hl1 : (pre ++ [c]).length = pre.length + 1 := by simp
    rw [hl1] at ih2
    rw [ih2, enumIdx]
    simp only [List.length_cons]
    rw [show pre.length + 1 + rest.length = pre.length + (rest.length + 1) by omega]
    simp

/-- The head line of `splitLines` is everything before the first
newline. -/
theorem splitAtNl_head (src : Txt) :
    (splitAtNl src).head? = some (src.takeWhile (fun c => c ≠ '\n')) := by
  induction src with
  | nil => rfl
  | cons c rest ih =>
    by_cases h : c = '\n'
    · subst h
      simp [splitAtNl, List.takeWhile]
    · rw [splitAtNl, if_neg h]
      match he : splitAtNl rest with
      | [] => rw [he] at ih; exact absurd ih (by simp)
      | l :: ls =>
        rw [he] at ih
        simp only [List.head?] at ih
        injection ih with ih
        rw [List.takeWhile_cons, if_pos (by simp [h]), ih]
        rfl

theorem splitAtNl_ne_nil (src : Txt) : splitAtNl src ≠ [] := by
  cases src with
  | nil => simp [splitAtNl]
  | cons c rest =>
    rw [splitAtNl]
    split
    · simp
    · match he : splitAtNl rest with
      | [] => simp
      | l :: ls => simp

/-- A text containing a newline splits into at least two pieces. -/
theorem splitAtNl_two_le (src : Txt) (hmem : '\n' ∈ src) :
    2 ≤ (splitAtNl src).length := by
  induction src with
  | nil => cases hmem
  | cons d drest ih =>
    rw [splitAtNl]
    rcases List.mem_cons.mp hmem with h | hmem2
    · rw [if_pos h.symm]
      match he : splitAtNl drest with
      | [] => exact absurd he (splitAtNl_ne_nil drest)
      | a :: as => simp
    · split
      · match he : splitAtNl drest with
        | [] => exact absurd he (splitAtNl_ne_nil drest)
        | a :: as => simp
      · have h2 := ih hmem2
        match he : splitAtNl drest with
        | [] => exact absurd he (splitAtNl_ne_nil drest)
        | l :: ls =>
          rw [he] at h2
          simp only [List.length_cons] at h2 ⊢
          omega

theorem splitLines_head (src : Txt) (h : src ≠ []) :
    (splitLines src).get? 0 = some (src.takeWhile (fun c => c ≠ '\n')) := by
  have hh := splitAtNl_head src
  have hexp : splitLines src =
      (if src.getLast? = some '\n' then (splitAtNl src).dropLast
        else splitAtNl src) := by
    cases src with
    | nil => exact absurd rfl h
    | cons c rest => rfl
  rw [hexp]
  split
  · rename_i hlast
    have hmem : '\n' ∈ src := List.mem_of_mem_getLast? hlast
    have hlen := splitAtNl_two_le src hmem
    obtain ⟨l, ls, he⟩ := List.exists_cons_of_ne_nil (splitAtNl_ne_nil src)
    rw [he] at hh hlen ⊢
    simp only [List.head?] at hh
    injection hh with hh
    cases ls with
    | nil => simp at hlen
    | cons b ls2 =>
      rw [show (l :: b :: ls2).dropLast = l :: (b :: ls2).dropLast from rfl]
      rw [show (l :: (b :: ls2).dropLast).get? 0 = some l from rfl, hh]
  · match he : splitAtNl src with
    | [] => exact absurd he (splitAtNl_ne_nil src)
    | l :: ls =>
      rw [he] at hh
      simp only [List.head?] at hh
      simpa using hh

/-- With line number 1, `get_src_index` is just the column offset. -/
theorem get_src_index_line1 (src : Txt) (col : Nat) :
    get_src_index src 1 col = col := by
  simp [get_src_index]

/-- A prefix on which a predicate holds passes through `takeWhile`. -/
theorem takeWhile_append_all {p : Char → Bool} (a b : Txt)
    (ha : ∀ c ∈ a, p c) :
    (a ++ b).takeWhile p = a ++ b.takeWhile p := by
  induction a with
  | nil => rfl
  | cons c rest ih =>
    rw [List.cons_append, List.takeWhile_cons, if_pos (ha c (List.mem_cons_self _ _)),
      ih (fun x hx => ha x (List.mem_cons_of_mem _ hx))]
    rfl

theorem findIdx?_first (a : Txt) (c : Char) (b : Txt) (ha : c ∉ a) :
    ∀ i, List.findIdx? (fun ch => ch = c) (a ++ c :: b) i = some (a.length + i) := by
  induction a with
  | nil =>
    intro i
    rw [List.nil_append, List.findIdx?_cons]
    simp
  | cons d rest ih =>
    intro i
    have hd : ¬ (d = c) := fun hx => ha (hx ▸ List.mem_cons_self _ _)
    rw [List.cons_append, List.findIdx?_cons, if_neg (by simp [hd])]
    rw [ih (fun hm => ha (List.mem_cons_of_mem _ hm)) (i + 1)]
    congr 1
    simp only [List.length_cons]
    omega

/-- The first occurrence of a character after a stretch free of it. -/
theorem strIndexFrom_first (a : Txt) (c : Char) (b : Txt) (ha : c ∉ a) :
    strIndexFrom (a ++ c :: b) c 0 = some a.length := by
  rw [strIndexFrom]
  simp only [List.drop_zero]
  rw [findIdx?_first a c b ha 0]
  simp

/-- The bracket discipline of well-formed argument text: the
`find_unbracketed_comma` stack automaton run over plain characters,
failing on an unmatched closing bracket or a top-level comma.  Canonical
first-argument text leaves the automaton back at the empty stack. -/
def bracketScan : Txt → List Char → Option (List Char)
  | [], st => some st
  | ch :: rest, st =>
    if ch = '(' then bracketScan rest (')' :: st)
    else if ch = '[' then bracketScan rest (']' :: st)
    else if ch = obr then bracketScan rest (cbr :: st)
    else if 0 < st.length ∧ st.head? = some ch then bracketScan rest st.tail
    else if ch = ')' ∨ ch = ']' ∨ ch = cbr then none
    else if ch = ',' ∧ st = [] then none
    else bracketScan rest st

/-- The comma-finder loop follows the bracket automaton over enumerated
plain text. -/
theorem fucLoop_bracketScan (t : Txt) :
    ∀ (i : Nat) (st st2 : List Char) (rest : List (Nat × Char)),
      bracketScan t st = some st2 →
      fucLoop (enumIdx i t ++ rest) st = fucLoop rest st2 := by
  induction t with
  | nil =>
    intro i st st2 rest h
    simp only [bracketScan, Option.some.injEq] at h
    subst h
    rfl
  | cons ch t2 ih =>
    intro i st st2 rest h
    rw [enumIdx, List.cons_append, fucLoop]
    by_cases h1 : ch = '('
    · rw [if_pos h1]
      rw [bracketScan, if_pos h1] at h
      exact ih (i + 1) _ st2 rest h
    · rw [if_neg h1]
      by_cases h2 : ch = '['
      · rw [if_pos h2]
        rw [bracketScan, if_neg h1, if_pos h2] at h
        exact ih (i + 1) _ st2 rest h
      · rw [if_neg h2]
        by_cases h3 : ch = obr
        · rw [if_pos h3]
          rw [bracketScan, if_neg h1, if_neg h2, if_pos h3] at h
          exact ih (i + 1) _ st2 rest h
        · rw [if_neg h3]
          by_cases h4 : 0 < st.length ∧ st.head? = some ch
          · rw [if_pos h4]
            rw [bracketScan, if_neg h1, if_neg h2, if_neg h3, if_pos h4] at h
            exact ih (i + 1) _ st2 rest h
          · rw [if_neg h4]
            by_cases h5 : ch = ')' ∨ ch = ']' ∨ ch = cbr
            · exfalso
              rw [bracketScan, if_neg h1, if_neg h2, if_neg h3, if_neg h4,
                if_pos h5] at h
              exact absurd h (by simp)
            · rw [if_neg h5]
              by_cases h6 : ch = ',' ∧ st = []
              · exfalso
                rw [bracketScan, if_neg h1, if_neg h2, if_neg h3, if_neg h4,
                  if_neg h5, if_pos h6] at h
                exact absurd h (by simp)
              · rw [if_neg h6]
                rw [bracketScan, if_neg h1, if_neg h2, if_neg h3, if_neg h4,
                  if_neg h5, if_neg h6] at h
                exact ih (i + 1) _ st2 rest h

/-- On canonical single-argument text, the comma finder scans the
argument without effect, meets the closing parenthesis as an unmatched
closing bracket, and reports no comma. -/
theorem find_unbracketed_comma_clean (pre0 t post : Txt)
    (hclean : ∀ ch ∈ t, ch ≠ dq ∧ ch ≠ sq)
    (hscan : bracketScan t [] = some []) :
    find_unbracketed_comma (pre0 ++ '(' :: t ++ ')' :: post)
      (pre0.length + 1) = none := by
  have hre : pre0 ++ '(' :: t ++ ')' :: post =
      (pre0 ++ ['(']) ++ (t ++ [')']) ++ post := by simp
  have hcl2 : ∀ ch ∈ t ++ [')'], ch ≠ dq ∧ ch ≠ sq := by
    intro ch hch
    rcases List.mem_append.mp hch with hch | hch
    · exact hclean ch hch
    · rw [List.mem_singleton.mp hch]
      refine ⟨by decide, by decide⟩
  have hd := uqe_clean_decomp (pre0 ++ ['(']) (t ++ [')']) post hcl2
  rw [find_unbracketed_comma, hre]
  rw [show (pre0 ++ ['(']).length = pre0.length + 1 by simp] at hd
  rw [hd]
  rw [enumIdx_append]
  rw [List.append_assoc]
  rw [fucLoop_bracketScan t (pre0.length + 1) [] [] _ hscan]
  rw [enumIdx, enumIdx, List.singleton_append, fucLoop]
  rw [if_neg (by decide), if_neg (by decide), if_neg (by decide),
    if_neg (by simp), if_pos (by simp)]

/-- On canonical balanced text, the delimiter matcher finds the closing
delimiter immediately after the argument text. -/
theorem find_closing_item_clean (pre0 t post : Txt) (o c : Char) (hoc : o ≠ c)
    (hcq : c ≠ dq ∧ c ≠ sq)
    (hclean : ∀ ch ∈ t, ch ≠ dq ∧ ch ≠ sq)
    (hbal : t.count o = t.count c)
    (hpref : ∀ m, (t.take m).count c ≤ (t.take m).count o) :
    find_closing_item (pre0 ++ o :: t ++ c :: post) pre0.length (o, c) =
      some (pre0.length + 1 + t.length) := by
  have hre : pre0 ++ o :: t ++ c :: post =
      (pre0 ++ [o]) ++ (t ++ [c]) ++ post := by simp
  have hcl2 : ∀ ch ∈ t ++ [c], ch ≠ dq ∧ ch ≠ sq := by
    intro ch hch
    rcases List.mem_append.mp hch with hch | hch
    · exact hclean ch hch
    · rw [List.mem_singleton.mp hch]
      exact hcq
  have hd := uqe_clean_decomp (pre0 ++ [o]) (t ++ [c]) post hcl2
  rw [show (pre0 ++ [o]).length = pre0.length + 1 by simp] at hd
  rw [find_closing_item]
  rw [hre]
  simp only at hd ⊢
  rw [hd]
  rw [fciLoop_some_iff o c hoc _ 1 (le_refl 1)]
  refine ⟨enumIdx (pre0.length + 1) t,
    unquoted_enumerate (pre0 ++ [o] ++ (t ++ [c]) ++ post)
      (pre0.length + 1 + (t ++ [c]).length), ?_, ?_, ?_⟩
  · rw [enumIdx_append, enumIdx, enumIdx, List.append_assoc,
      List.singleton_append]
  · rw [countc_enumIdx, countc_enumIdx, hbal]
  · intro p hp
    obtain ⟨m, rfl⟩ := prefix_enumIdx hp
    rw [countc_enumIdx, countc_enumIdx]
    have := hpref m
    omega

/-- Quote-free text: no double or single quote characters.  Decidable
form of the cleanliness hypothesis of the scanner lemmas. -/
def noQuotes (t : Txt) : Bool := t.all (fun ch => ch ≠ dq && ch ≠ sq)

theorem noQuotes_spec {t : Txt} (h : noQuotes t = true) :
    ∀ ch ∈ t, ch ≠ dq ∧ ch ≠ sq := by
  intro ch hch
  have := List.all_eq_true.mp h ch hch
  simpa using this

/-- Every prefix has at least as many opening as closing delimiters.
Decidable form of the prefix-balance hypothesis. -/
def prefixBalanced (o c : Char) (t : Txt) : Bool :=
  (List.range (t.length + 1)).all
    (fun m => (t.take m).count c ≤ (t.take m).count o)

theorem prefixBalanced_spec {o c : Char} {t : Txt}
    (h : prefixBalanced o c t = true) :
    ∀ m, (t.take m).count c ≤ (t.take m).count o := by
  intro m
  by_cases hm : m ≤ t.length
  · have hmem : m ∈ List.range (t.length + 1) := List.mem_range.mpr (by omega)
    have := List.all_eq_true.mp h m hmem
    simpa using this
  · have hmem : t.length ∈ List.range (t.length + 1) :=
      List.mem_range.mpr (by omega)
    have := List.all_eq_true.mp h t.length hmem
    rw [List.take_of_length_le (by omega), ← List.take_length (l := t)]
    simpa using this

/-- A python identifier character (the `find_identifier_end` continuation
test): a letter, a digit, or an underscore. -/
def identChar (ch : Char) : Bool := ch.isAlpha || ch.isDigit || ch = '_'

/-- The text after a reference does not extend the identifier: it is
empty or starts with a non-identifier character. -/
def headNonIdent (post : Txt) : Bool :=
  match post.head? with
  | none => true
  | some ch => !identChar ch

/-- Reading the source at an offset into a framed middle segment. -/
theorem get?_middle (pre mid post : Txt) (k : Nat) (hk : k < mid.length) :
    (pre ++ mid ++ post).get? (pre.length + k) = mid.get? k := by
  rw [List.append_assoc]
  rw [List.get?_append_right (by omega)]
  rw [show pre.length + k - pre.length = k by omega]
  rw [List.get?_append hk]

/-- Reading the source at an offset past a framed middle segment. -/
theorem get?_past (pre mid post : Txt) (j : Nat) :
    (pre ++ mid ++ post).get? (pre.length + mid.length + j) = post.get? j := by
  rw [List.append_assoc]
  rw [List.get?_append_right (by omega)]
  rw [show pre.length + mid.length + j - pre.length = mid.length + j by omega]
  rw [List.get?_append_right (by omega)]
  rw [show mid.length + j - mid.length = j by omega]

/-- Slicing a framed middle segment out of the source. -/
theorem pslice_middle (pre mid post : Txt) :
    pslice (pre ++ mid ++ post) pre.length (pre.length + mid.length) = mid := by
  rw [pslice, List.append_assoc, List.drop_left]
  rw [show pre.length + mid.length - pre.length = mid.length by omega]
  exact List.take_left mid post

/-- The exact-span collaborator on a single-line node span framed in the
source: it returns exactly the framed text. -/
theorem get_source_segment_line1 (pre T post : Txt) (node : PyAst)
    (hspan : nodeSpan node = some ⟨1, pre.length, 1, pre.length + T.length⟩)
    (hpre : '\n' ∉ pre) (hT : '\n' ∉ T) :
    get_source_segment (pre ++ T ++ post) node = T := by
  rw [get_source_segment, hspan]
  simp only
  rw [if_pos trivial]
  by_cases hsrc : pre ++ T ++ post = []
  · rw [List.append_assoc, List.append_eq_nil] at hsrc
    obtain ⟨h1, hsrc⟩ := hsrc
    rw [List.append_eq_nil] at hsrc
    obtain ⟨h2, h3⟩ := hsrc
    subst h1
    subst h2
    subst h3
    simp [splitLines]
  · rw [show (1 : Nat) - 1 = 0 by rfl]
    rw [splitLines_head _ hsrc]
    rw [Option.getD_some]
    have hall : ∀ c ∈ pre ++ T, (fun c => decide (c ≠ '\n')) c = true := by
      intro c hc
      rcases List.mem_append.mp hc with hc | hc
      · simp
        exact fun he => hpre (he ▸ hc)
      · simp
        exact fun he => hT (he ▸ hc)
    rw [takeWhile_append_all (pre ++ T) post hall]
    rw [List.append_assoc, List.drop_left]
    rw [show pre.length + T.length - pre.length = T.length by omega]
    exact List.take_left T _

/-- The identifier-end loop runs over `d` identifier characters and stops
just before the first non-identifier position (or the end of the code),
returning the index one before the stop. -/
theorem fieLoop_run (code : Txt) (d : Nat) :
    ∀ (f i : Nat), d + 1 ≤ f →
      (∀ k, k < d → ∃ ch, code.get? (i + k) = some ch ∧ identChar ch = true) →
      (code.get? (i + d) = none ∨
        ∃ ch, code.get? (i + d) = some ch ∧ identChar ch = false) →
      fieLoop code f i = i + d - 1 := by
  induction d with
  | zero =>
    intro f i hf hrun hstop
    obtain ⟨f2, rfl⟩ : ∃ f2, f = f2 + 1 := ⟨f - 1, by omega⟩
    rw [fieLoop]
    rcases hstop with hstop | ⟨ch, hget, hid⟩
    · rw [Nat.add_zero] at hstop
      rw [dif_neg (by have := List.get?_eq_none.mp hstop; omega)]
      rfl
    · rw [Nat.add_zero] at hget
      have hlt : i < code.length := (List.get?_eq_some.mp hget).1
      rw [dif_pos hlt]
      have hch : code.get ⟨i, hlt⟩ = ch := by
        have := List.get?_eq_get hlt
        rw [hget] at this
        exact (Option.some.injEq _ _).mp this.symm
      rw [hch]
      rw [if_pos (by
        simp only [identChar, Bool.or_eq_false_iff] at hid
        refine ⟨by simp [hid.1.1], by simp [hid.1.2], by simpa using hid.2⟩)]
      rfl
  | succ d2 ih =>
    intro f i hf hrun hstop
    obtain ⟨f2, rfl⟩ : ∃ f2, f = f2 + 1 := ⟨f - 1, by omega⟩
    obtain ⟨ch, hget, hid⟩ := hrun 0 (by omega)
    rw [Nat.add_zero] at hget
    have hlt : i < code.length := (List.get?_eq_some.mp hget).1
    rw [fieLoop, dif_pos hlt]
    have hch : code.get ⟨i, hlt⟩ = ch := by
      have := List.get?_eq_get hlt
      rw [hget] at this
      exact (Option.some.injEq _ _).mp this.symm
    rw [hch]
    rw [if_neg (by
      simp only [identChar, Bool.or_eq_true] at hid
      rcases hid with (h | h) | h
      · exact fun hc => absurd h (by simp [hc.1])
      · exact fun hc => absurd h (by simp [hc.2.1])
      · exact fun hc => absurd (by simpa using h) hc.2.2)]
    have h1 : fieLoop code f2 (i + 1) = (i + 1) + d2 - 1 := by
      refine ih f2 (i + 1) (by omega) ?_ ?_
      · intro k hk
        obtain ⟨ch2, hg, hi⟩ := hrun (k + 1) (by omega)
        exact ⟨ch2, by rw [show i + 1 + k = i + (k + 1) by omega]; exact hg, hi⟩
      · rw [show i + 1 + d2 = i + (d2 + 1) by omega]
        exact hstop
    rw [h1]
    omega

/-- Appending the one-character dot separator: the length of a joined
attribute chain. -/
theorem intercalate_cons2 (p q : Txt) (ps : List Txt) :
    List.intercalate ['.'] (p :: q :: ps) =
      p ++ '.' :: List.intercalate ['.'] (q :: ps) := by
  simp [List.intercalate, List.intersperse]

/-- The length of a dot-joined chain: total part length plus the
separators. -/
theorem intercalate_dot_length (parts : List Txt) :
    parts ≠ [] →
    (List.intercalate ['.'] parts).length =
      (parts.map List.length).sum + parts.length - 1 := by
  induction parts with
  | nil => intro h; exact absurd rfl h
  | cons p ps ih =>
    intro _
    cases ps with
    | nil => simp [List.intercalate]
    | cons q ps2 =>
      rw [intercalate_cons2]
      have := ih (by simp)
      simp only [List.length_append, List.length_cons, this]
      simp [List.map_cons, List.sum_cons]
      omega

/-- The last part of a chain is one of its parts. -/
theorem getLast?_mem {α : Type} {l : List α} {a : α}
    (h : l.getLast? = some a) : a ∈ l :=
  List.mem_of_mem_getLast? h

/-- The attribute-period loop skips dot-free text. -/
theorem fnapLoop_skip (src t : Txt) (ht : '.' ∉ t) :
    ∀ (i n : Nat) (rest : List (Nat × Char)),
      fnapLoop src (enumIdx i t ++ rest) n = fnapLoop src rest n := by
  induction t with
  | nil => intro i n rest; rfl
  | cons ch t2 ih =>
    intro i n rest
    rw [enumIdx, List.cons_append, fnapLoop]
    rw [if_neg (fun hc => ht (by rw [← hc]; exact List.mem_cons_self _ _))]
    exact ih (fun hm => ht (List.mem_cons_of_mem _ hm)) (i + 1) n rest

/-- A part made of identifier characters contains no period. -/
theorem not_dot_of_ident {p : Txt} (h : p.all identChar = true) : '.' ∉ p := by
  intro hm
  exact absurd (List.all_eq_true.mp h '.' hm) (by decide)

/-- The attribute-period loop over a dot-joined identifier chain framed
in the source finds the final separating period: the period count runs
out at the period before the last part. -/
theorem fnapLoop_chain (src : Txt) :
    ∀ (parts : List Txt) (lastP : Txt) (i : Nat) (rest : List (Nat × Char)),
      2 ≤ parts.length →
      parts.getLast? = some lastP →
      (∀ p ∈ parts, p ≠ [] ∧ p.all identChar = true) →
      (∀ k, k < (List.intercalate ['.'] parts).length →
        src.get? (i + k) = (List.intercalate ['.'] parts).get? k) →
      fnapLoop src (enumIdx i (List.intercalate ['.'] parts) ++ rest)
          (parts.length - 2) =
        some (i + (List.intercalate ['.'] parts).length - lastP.length - 1) := by
  intro parts
  induction parts with
  | nil =>
    intro lastP i rest h2
    simp at h2
  | cons p ps ih =>
    intro lastP i rest h2 hlast hparts hij
    cases ps with
    | nil => simp at h2
    | cons q ps2 =>
      rw [intercalate_cons2] at hij ⊢
      obtain ⟨hpne, hpid⟩ := hparts p (List.mem_cons_self _ _)
      obtain ⟨hqne, hqid⟩ :=
        hparts q (List.mem_cons_of_mem _ (List.mem_cons_self _ _))
      obtain ⟨s, hs⟩ : ∃ s, List.intercalate ['.'] (q :: ps2) = q ++ s := by
        cases ps2 with
        | nil => exact ⟨[], by simp [List.intercalate]⟩
        | cons r ps3 => exact ⟨_, intercalate_cons2 q r ps3⟩
      have hplen : 1 ≤ p.length := by
        cases p with
        | nil => exact absurd rfl hpne
        | cons a b => simp
      have hqlen : 1 ≤ q.length := by
        cases q with
        | nil => exact absurd rfl hqne
        | cons a b => simp
      have hlenI : 1 ≤ (List.intercalate ['.'] (q :: ps2)).length := by
        rw [hs, List.length_append]
        omega
      have hTlen : (p ++ '.' :: List.intercalate ['.'] (q :: ps2)).length =
          p.length + 1 + (List.intercalate ['.'] (q :: ps2)).length := by
        rw [List.length_append, List.length_cons]
        omega
      rw [enumIdx_append, List.append_assoc,
        fnapLoop_skip src p (not_dot_of_ident hpid)]
      rw [show enumIdx (i + p.length) ('.' :: List.intercalate ['.'] (q :: ps2)) =
        (i + p.length, '.') ::
          enumIdx (i + p.length + 1) (List.intercalate ['.'] (q :: ps2)) from rfl]
      rw [List.cons_append, fnapLoop, if_pos rfl]
      have hleft : ¬ (1 ≤ i + p.length ∧
          src.get? (i + p.length - 1) = some '.') := by
        rintro ⟨-, hl⟩
        rw [show i + p.length - 1 = i + (p.length - 1) by omega] at hl
        rw [hij (p.length - 1) (by rw [hTlen]; omega)] at hl
        rw [List.get?_append (by omega)] at hl
        exact not_dot_of_ident hpid (List.get?_mem hl)
      have hright : ¬ src.get? (i + p.length + 1) = some '.' := by
        intro hr
        rw [show i + p.length + 1 = i + (p.length + 1) by omega] at hr
        rw [hij (p.length + 1) (by rw [hTlen]; omega)] at hr
        rw [List.get?_append_right (by omega)] at hr
        rw [show p.length + 1 - p.length = 0 + 1 by omega] at hr
        rw [List.get?_cons_succ] at hr
        rw [hs, List.get?_append (by omega)] at hr
        exact not_dot_of_ident hqid (List.get?_mem hr)
      rw [if_neg (by rintro (h | h); exacts [hleft h, hright h])]
      cases ps2 with
      | nil =>
        rw [if_pos (by simp)]
        have hl2 : lastP = q := by
          rw [List.getLast?_cons_cons] at hlast
          simpa [List.getLast?] using hlast.symm
        rw [hl2, hTlen]
        have hI : (List.intercalate ['.'] [q]).length = q.length := by
          simp [List.intercalate]
        rw [hI]
        congr 1
        omega
      | cons r ps3 =>
        rw [if_neg (by simp)]
        rw [List.getLast?_cons_cons] at hlast
        have hijI : ∀ k, k < (List.intercalate ['.'] (q :: r :: ps3)).length →
            src.get? (i + p.length + 1 + k) =
              (List.intercalate ['.'] (q :: r :: ps3)).get? k := by
          intro k hk
          rw [show i + p.length + 1 + k = i + (p.length + 1 + k) by omega]
          rw [hij (p.length + 1 + k) (by rw [hTlen]; omega)]
          rw [List.get?_append_right (by omega)]
          rw [show p.length + 1 + k - p.length = k + 1 by omega]
          rw [List.get?_cons_succ]
        have hrec := ih lastP (i + p.length + 1) rest (by simp) hlast
          (fun x hx => hparts x (List.mem_cons_of_mem _ hx)) hijI
        rw [show (p :: q :: r :: ps3).length - 2 - 1 =
          (q :: r :: ps3).length - 2 by simp]
        rw [hrec, hTlen]
        congr 1
        omega

/-- Both extraction paths of `get_expr_src` on a canonical single-line
call `f(EXPR)`: the exact-span path and the scanner fallback both return
the dedented, stripped argument text. -/
theorem get_expr_src_agree (fname argT post : Txt) (el ec : Nat)
    (func arg : PyAst) (args kws : List PyAst)
    (hfp : '(' ∉ fname) (hfn : '\n' ∉ fname) (han : '\n' ∉ argT)
    (hq : noQuotes argT = true)
    (hscan : bracketScan argT [] = some [])
    (hbal : argT.count '(' = argT.count ')')
    (hpref : prefixBalanced '(' ')' argT = true)
    (hhead : args.head? = some arg)
    (hargspan : nodeSpan arg =
      some ⟨1, fname.length + 1, 1, fname.length + 1 + argT.length⟩) :
    get_expr_src true (fname ++ '(' :: argT ++ ')' :: post)
        (.Call ⟨1, 0, el, ec⟩ func args kws) = some (pstrip (dedent argT)) ∧
    get_expr_src false (fname ++ '(' :: argT ++ ')' :: post)
        (.Call ⟨1, 0, el, ec⟩ func args kws) = some (pstrip (dedent argT)) := by
  have hre : fname ++ '(' :: argT ++ ')' :: post =
      (fname ++ ['(']) ++ argT ++ (')' :: post) := by simp
  have hre2 : fname ++ '(' :: argT ++ ')' :: post =
      fname ++ '(' :: (argT ++ ')' :: post) := by simp
  have hlen1 : (fname ++ ['(']).length = fname.length + 1 := by simp
  have hnoNl : '\n' ∉ fname ++ ['('] := by
    intro hm
    rcases List.mem_append.mp hm with h | h
    · exact hfn h
    · simp at h
  have hseg : get_source_segment (fname ++ '(' :: argT ++ ')' :: post) arg =
      argT := by
    rw [hre]
    exact get_source_segment_line1 _ _ _ _ (by rw [hargspan, hlen1]) hnoNl han
  have hfci : find_closing_item (fname ++ '(' :: argT ++ ')' :: post)
      fname.length ('(', ')') = some (fname.length + 1 + argT.length) :=
    find_closing_item_clean fname argT post '(' ')' (by decide)
      ⟨by decide, by decide⟩ (noQuotes_spec hq) hbal (prefixBalanced_spec hpref)
  have hfuc : find_unbracketed_comma (fname ++ '(' :: argT ++ ')' :: post)
      (fname.length + 1) = none :=
    find_unbracketed_comma_clean fname argT post (noQuotes_spec hq) hscan
  have hps : pslice (fname ++ '(' :: argT ++ ')' :: post)
      (fname.length + 1) (fname.length + 1 + argT.length) = argT := by
    rw [hre]
    have := pslice_middle (fname ++ ['(']) argT (')' :: post)
    rw [hlen1] at this
    exact this
  constructor
  · simp only [get_expr_src, hhead]
    rw [if_pos trivial, hseg]
  · simp only [get_expr_src, hhead]
    rw [if_neg (by simp)]
    simp only [get_src_index_line1]
    rw [hre2, strIndexFrom_first fname '(' _ hfp, ← hre2]
    simp only [hfci, hfuc, hps]

/-- The identifier-end scanner started at a framed identifier returns
the index of its last character. -/
theorem find_identifier_end_run (pre nm post : Txt)
    (hne : nm ≠ []) (hid : nm.all identChar = true)
    (hpost : headNonIdent post = true) :
    find_identifier_end (pre ++ nm ++ post) pre.length =
      pre.length + nm.length - 1 := by
  have hlen : (pre ++ nm ++ post).length =
      pre.length + nm.length + post.length := by
    simp
    omega
  have hnm1 : 1 ≤ nm.length := by
    cases nm with
    | nil => exact absurd rfl hne
    | cons a b => simp
  have hrun : ∀ k, k < nm.length - 1 →
      ∃ ch, (pre ++ nm ++ post).get? (pre.length + 1 + k) = some ch ∧
        identChar ch = true := by
    intro k hk
    have hk1 : k + 1 < nm.length := by omega
    refine ⟨nm.get ⟨k + 1, hk1⟩, ?_, ?_⟩
    · rw [show pre.length + 1 + k = pre.length + (k + 1) by omega]
      rw [get?_middle pre nm post (k + 1) hk1]
      exact List.get?_eq_get hk1
    · exact List.all_eq_true.mp hid _ (nm.get_mem _ _)
  have hstop : (pre ++ nm ++ post).get?
        (pre.length + 1 + (nm.length - 1)) = none ∨
      ∃ ch, (pre ++ nm ++ post).get?
          (pre.length + 1 + (nm.length - 1)) = some ch ∧
        identChar ch = false := by
    rw [show pre.length + 1 + (nm.length - 1) =
      pre.length + nm.length + 0 by omega]
    rw [get?_past pre nm post 0]
    cases post with
    | nil => exact Or.inl rfl
    | cons ch rest =>
      refine Or.inr ⟨ch, rfl, ?_⟩
      have hb : (!identChar ch) = true := hpost
      simpa using hb
  rw [find_identifier_end]
  rw [fieLoop_run (pre ++ nm ++ post) (nm.length - 1) _ (pre.length + 1)
    (by rw [hlen]; omega) hrun hstop]
  omega

/-- Both extraction paths of `get_ref_src` on a name reference framed in
single-line source: the exact-span path and the identifier-scanning
fallback both return the name text. -/
theorem get_ref_src_name_agree (pre nm post : Txt) (id : String)
    (hpn : '\n' ∉ pre) (hnn : '\n' ∉ nm)
    (hne : nm ≠ []) (hid : nm.all identChar = true)
    (hpost : headNonIdent post = true) :
    get_ref_src true (pre ++ nm ++ post)
        (.Name ⟨1, pre.length, 1, pre.length + nm.length⟩ id) = some nm ∧
    get_ref_src false (pre ++ nm ++ post)
        (.Name ⟨1, pre.length, 1, pre.length + nm.length⟩ id) = some nm := by
  have hnm1 : 1 ≤ nm.length := by
    cases nm with
    | nil => exact absurd rfl hne
    | cons a b => simp
  constructor
  · simp only [get_ref_src]
    rw [if_pos trivial]
    rw [get_source_segment_line1 pre nm post
      (.Name ⟨1, pre.length, 1, pre.length + nm.length⟩ id) rfl hpn hnn]
  · simp only [get_ref_src]
    rw [if_neg (by simp)]
    simp only [nodeSpan, get_src_index_line1]
    simp only [find_identifier_end_run pre nm post hne hid hpost]
    rw [show pre.length + nm.length - 1 + 1 = pre.length + nm.length by omega]
    rw [pslice_middle]

/-- A dot-joined chain ends with its last part. -/
theorem intercalate_getLast (parts : List Txt) (lastP : Txt)
    (h : parts.getLast? = some lastP) :
    ∃ T0, List.intercalate ['.'] parts = T0 ++ lastP := by
  induction parts with
  | nil => simp at h
  | cons p ps ih =>
    cases ps with
    | nil =>
      have hp : p = lastP := by simpa [List.getLast?] using h
      exact ⟨[], by simp [List.intercalate, hp]⟩
    | cons q ps2 =>
      rw [List.getLast?_cons_cons] at h
      obtain ⟨T0, hT0⟩ := ih h
      refine ⟨p ++ '.' :: T0, ?_⟩
      rw [intercalate_cons2, hT0]
      simp

/-- Both extraction paths of `get_ref_src` on an attribute chain framed
in single-line source: the exact-span path and the period-counting
fallback both return the full chain text. -/
theorem get_ref_src_attr_agree (pre post : Txt) (parts : List Txt)
    (lastP : Txt) (value : PyAst) (attr : String)
    (hpn : '\n' ∉ pre)
    (hTn : '\n' ∉ List.intercalate ['.'] parts)
    (hTq : noQuotes (List.intercalate ['.'] parts) = true)
    (h2 : 2 ≤ parts.length)
    (hlast : parts.getLast? = some lastP)
    (hparts : ∀ p ∈ parts, p ≠ [] ∧ p.all identChar = true)
    (hpost : headNonIdent post = true)
    (hcount : ((ast_walk (PyAst.Attribute
        ⟨1, pre.length, 1,
          pre.length + (List.intercalate ['.'] parts).length⟩ value attr)).filter
        (fun pn => isAttrNode pn.2)).length = parts.length - 1) :
    get_ref_src true (pre ++ List.intercalate ['.'] parts ++ post)
        (.Attribute ⟨1, pre.length, 1,
          pre.length + (List.intercalate ['.'] parts).length⟩ value attr) =
      some (List.intercalate ['.'] parts) ∧
    get_ref_src false (pre ++ List.intercalate ['.'] parts ++ post)
        (.Attribute ⟨1, pre.length, 1,
          pre.length + (List.intercalate ['.'] parts).length⟩ value attr) =
      some (List.intercalate ['.'] parts) := by
  obtain ⟨T0, hT0⟩ := intercalate_getLast parts lastP hlast
  have hlpmem : lastP ∈ parts := getLast?_mem hlast
  have hlastne : lastP ≠ [] := (hparts lastP hlpmem).1
  have hlastid : lastP.all identChar = true := (hparts lastP hlpmem).2
  have hlp1 : 1 ≤ lastP.length := by
    cases lastP with
    | nil => exact absurd rfl hlastne
    | cons a b => simp
  have hsum : lastP.length ≤ (parts.map List.length).sum :=
    List.single_le_sum (fun x _ => Nat.zero_le x) _
      (List.mem_map_of_mem List.length hlpmem)
  have hTlen := intercalate_dot_length parts (by
    cases parts with
    | nil => simp at h2
    | cons a b => simp)
  have hlpT : lastP.length + 1 ≤ (List.intercalate ['.'] parts).length := by
    rw [hTlen]
    omega
  have hT0len : T0.length =
      (List.intercalate ['.'] parts).length - lastP.length := by
    have := congrArg List.length hT0
    rw [List.length_append] at this
    omega
  constructor
  · simp only [get_ref_src]
    rw [if_pos trivial]
    rw [get_source_segment_line1 pre (List.intercalate ['.'] parts) post
      (.Attribute ⟨1, pre.length, 1,
        pre.length + (List.intercalate ['.'] parts).length⟩ value attr)
      rfl hpn hTn]
  · simp only [get_ref_src]
    rw [if_neg (by simp)]
    simp only [nodeSpan, get_src_index_line1]
    rw [hcount]
    rw [show parts.length - 1 - 1 = parts.length - 2 by omega]
    have hfnap : find_nth_attribute_period
        (pre ++ List.intercalate ['.'] parts ++ post) pre.length
        (parts.length - 2) =
        some (pre.length + (List.intercalate ['.'] parts).length -
          lastP.length - 1) := by
      rw [find_nth_attribute_period]
      rw [uqe_clean_decomp pre (List.intercalate ['.'] parts) post
        (noQuotes_spec hTq)]
      exact fnapLoop_chain _ parts lastP pre.length _ h2 hlast hparts
        (fun k hk => get?_middle pre (List.intercalate ['.'] parts) post k hk)
    simp only [hfnap]
    have hre : pre ++ List.intercalate ['.'] parts ++ post =
        (pre ++ T0) ++ lastP ++ post := by
      rw [hT0]
      simp
    have hfie := find_identifier_end_run (pre ++ T0) lastP post
      hlastne hlastid hpost
    rw [← hre] at hfie
    rw [show pre.length + (List.intercalate ['.'] parts).length -
        lastP.length - 1 + 1 = (pre ++ T0).length by
      rw [List.length_append, hT0len]
      omega]
    simp only [hfie]
    rw [show (pre ++ T0).length + lastP.length - 1 + 1 =
        pre.length + (List.intercalate ['.'] parts).length by
      rw [List.length_append, hT0len]
      omega]
    rw [pslice_middle]

/-- Both extraction paths of `get_ref_src` on a subscript reference
framed in single-line source: the exact-span path and the
bracket-matching fallback both return the full `base[inner]` text. -/
theorem get_ref_src_subscript_agree (pre baseT innerT post : Txt)
    (base inner : PyAst) (isp : Span) (e3 e4 : Nat)
    (hpn : '\n' ∉ pre) (hbn : '\n' ∉ baseT) (hin : '\n' ∉ innerT)
    (hq : noQuotes innerT = true)
    (hbal : innerT.count '[' = innerT.count ']')
    (hpref : prefixBalanced '[' ']' innerT = true)
    (hinner : nodeSpan inner =
      some ⟨1, pre.length + baseT.length + 1, e3, e4⟩) :
    get_ref_src true (pre ++ (baseT ++ '[' :: innerT ++ [']']) ++ post)
        (.Subscript ⟨1, pre.length, 1,
          pre.length + (baseT ++ '[' :: innerT ++ [']']).length⟩ base
          (.IndexNode isp inner)) =
      some (baseT ++ '[' :: innerT ++ [']']) ∧
    get_ref_src false (pre ++ (baseT ++ '[' :: innerT ++ [']']) ++ post)
        (.Subscript ⟨1, pre.length, 1,
          pre.length + (baseT ++ '[' :: innerT ++ [']']).length⟩ base
          (.IndexNode isp inner)) =
      some (baseT ++ '[' :: innerT ++ [']']) := by
  have hmn : '\n' ∉ baseT ++ '[' :: innerT ++ [']'] := by
    intro hm
    rcases List.mem_append.mp hm with h | h
    · rcases List.mem_append.mp h with h | h
      · exact hbn h
      · rcases List.mem_cons.mp h with h | h
        · simp at h
        · exact hin h
    · simp at h
  have hfci2 : find_closing_item
      (pre ++ (baseT ++ '[' :: innerT ++ [']']) ++ post)
      (pre.length + baseT.length) ('[', ']') =
      some (pre.length + baseT.length + 1 + innerT.length) := by
    have h := find_closing_item_clean (pre ++ baseT) innerT post '[' ']'
      (by decide) ⟨by decide, by decide⟩ (noQuotes_spec hq) hbal
      (prefixBalanced_spec hpref)
    rw [List.length_append] at h
    rw [show pre ++ baseT ++ '[' :: innerT ++ ']' :: post =
      pre ++ (baseT ++ '[' :: innerT ++ [']']) ++ post by simp] at h
    exact h
  constructor
  · simp only [get_ref_src]
    rw [if_pos trivial]
    rw [get_source_segment_line1 pre (baseT ++ '[' :: innerT ++ [']']) post
      (.Subscript ⟨1, pre.length, 1,
        pre.length + (baseT ++ '[' :: innerT ++ [']']).length⟩ base
        (.IndexNode isp inner)) rfl hpn hmn]
  · simp only [get_ref_src]
    rw [if_neg (by simp)]
    simp only [show nodeSpan (PyAst.Subscript ⟨1, pre.length, 1,
        pre.length + (baseT ++ '[' :: innerT ++ [']']).length⟩ base
        (.IndexNode isp inner)) = some ⟨1, pre.length, 1,
        pre.length + (baseT ++ '[' :: innerT ++ [']']).length⟩ from rfl,
      get_src_index_line1]
    simp only [hinner, get_src_index_line1]
    rw [show pre.length + baseT.length + 1 - 1 =
      pre.length + baseT.length by omega]
    simp only [hfci2]
    rw [show pre.length + baseT.length + 1 + innerT.length + 1 =
        pre.length + (baseT ++ '[' :: innerT ++ [']']).length by
      simp
      omega]
    rw [pslice_middle]

/-- C6: on canonical single-line input, the exact-span extraction path
and the scanner-based fallback path agree.  (a) For a call `f(EXPR)`
whose argument text is quote-free and bracket-balanced with no
top-level comma (the bracket automaton accepts it and ends with an
empty stack), `get_expr_src` returns the dedented, stripped source text
of `EXPR` on both paths.  (b) For a name reference, (c) an attribute
chain (with the fallback's period count matching the chain length), and
(d) a subscript reference, `get_ref_src` returns the same reference
text on both paths. -/
theorem claim_C6 :
    (∀ (fname argT post : Txt) (el ec : Nat) (func arg : PyAst)
        (args kws : List PyAst),
      '(' ∉ fname → '\n' ∉ fname → '\n' ∉ argT →
      noQuotes argT = true → bracketScan argT [] = some [] →
      argT.count '(' = argT.count ')' → prefixBalanced '(' ')' argT = true →
      args.head? = some arg →
      nodeSpan arg =
        some ⟨1, fname.length + 1, 1, fname.length + 1 + argT.length⟩ →
      get_expr_src true (fname ++ '(' :: argT ++ ')' :: post)
          (.Call ⟨1, 0, el, ec⟩ func args kws) = some (pstrip (dedent argT)) ∧
      get_expr_src false (fname ++ '(' :: argT ++ ')' :: post)
          (.Call ⟨1, 0, el, ec⟩ func args kws) = some (pstrip (dedent argT))) ∧
    (∀ (pre nm post : Txt) (id : String),
      '\n' ∉ pre → '\n' ∉ nm → nm ≠ [] → nm.all identChar = true →
      headNonIdent post = true →
      get_ref_src true (pre ++ nm ++ post)
          (.Name ⟨1, pre.length, 1, pre.length + nm.length⟩ id) = some nm ∧
      get_ref_src false (pre ++ nm ++ post)
          (.Name ⟨1, pre.length, 1, pre.length + nm.length⟩ id) = some nm) ∧
    (∀ (pre post : Txt) (parts : List Txt) (lastP : Txt) (value : PyAst)
        (attr : String),
      '\n' ∉ pre → '\n' ∉ List.intercalate ['.'] parts →
      noQuotes (List.intercalate ['.'] parts) = true →
      2 ≤ parts.length → parts.getLast? = some lastP →
      (∀ p ∈ parts, p ≠ [] ∧ p.all identChar = true) →
      headNonIdent post = true →
      ((ast_walk (PyAst.Attribute ⟨1, pre.length, 1,
          pre.length + (List.intercalate ['.'] parts).length⟩ value
          attr)).filter (fun pn => isAttrNode pn.2)).length =
        parts.length - 1 →
      get_ref_src true (pre ++ List.intercalate ['.'] parts ++ post)
          (.Attribute ⟨1, pre.length, 1,
            pre.length + (List.intercalate ['.'] parts).length⟩ value attr) =
        some (List.intercalate ['.'] parts) ∧
      get_ref_src false (pre ++ List.intercalate ['.'] parts ++ post)
          (.Attribute ⟨1, pre.length, 1,
            pre.length + (List.intercalate ['.'] parts).length⟩ value attr) =
        some (List.intercalate ['.'] parts)) ∧
    (∀ (pre baseT innerT post : Txt) (base inner : PyAst) (isp : Span)
        (e3 e4 : Nat),
      '\n' ∉ pre → '\n' ∉ baseT → '\n' ∉ innerT →
      noQuotes innerT = true →
      innerT.count '[' = innerT.count ']' →
      prefixBalanced '[' ']' innerT = true →
      nodeSpan inner = some ⟨1, pre.length + baseT.length + 1, e3, e4⟩ →
      get_ref_src true (pre ++ (baseT ++ '[' :: innerT ++ [']']) ++ post)
          (.Subscript ⟨1, pre.length, 1,
            pre.length + (baseT ++ '[' :: innerT ++ [']']).length⟩ base
            (.IndexNode isp inner)) =
        some (baseT ++ '[' :: innerT ++ [']']) ∧
      get_ref_src false (pre ++ (baseT ++ '[' :: innerT ++ [']']) ++ post)
          (.Subscript ⟨1, pre.length, 1,
            pre.length + (baseT ++ '[' :: innerT ++ [']']).length⟩ base
            (.IndexNode isp inner)) =
        some (baseT ++ '[' :: innerT ++ [']'])) := by
  refine ⟨?_, ?_, ?_, ?_⟩
  · intro fname argT post el ec func arg args kws h1 h2 h3 h4 h5 h6 h7 h8 h9
    exact get_expr_src_agree fname argT post el ec func arg args kws
      h1 h2 h3 h4 h5 h6 h7 h8 h9
  · intro pre nm post id h1 h2 h3 h4 h5
    exact get_ref_src_name_agree pre nm post id h1 h2 h3 h4 h5
  · intro pre post parts lastP value attr h1 h2 h3 h4 h5 h6 h7 h8
    exact get_ref_src_attr_agree pre post parts lastP value attr
      h1 h2 h3 h4 h5 h6 h7 h8
  · intro pre baseT innerT post base inner isp e3 e4 h1 h2 h3 h4 h5 h6 h7
    exact get_ref_src_subscript_agree pre baseT innerT post base inner isp
      e3 e4 h1 h2 h3 h4 h5 h6 h7

/-- C6 witness fixture: the argument expression node of `f(x + (2 * y))`. -/
def c6aarg : PyAst :=
  .BinOp ⟨1, 2, 1, 13⟩ (.Name ⟨1, 2, 1, 3⟩ "x") (.Name ⟨1, 7, 1, 12⟩ "y")

/-- C6 witness fixture: the inner value node `a.bb` of the chain
`a.bb.c`. -/
def c6cvalue : PyAst :=
  .Attribute ⟨1, 0, 1, 4⟩ (.Name ⟨1, 0, 1, 1⟩ "a") "bb"

/-- Concrete agreement of both extraction paths: on the call
`f(x + (2 * y))`, the name `x` in `x + 1`, the chain `a.bb.c` in
`a.bb.c + 1`, and the subscript `m[idx]`, both paths produce the
expected text. -/
theorem claim_C6_witness :
    (get_expr_src true
        (['f'] ++ '(' ::
          ['x', ' ', '+', ' ', '(', '2', ' ', '*', ' ', 'y', ')'] ++ ')' :: [])
        (.Call ⟨1, 0, 1, 14⟩ (.Name ⟨1, 0, 1, 1⟩ "f") [c6aarg] []) =
      some (pstrip (dedent
        ['x', ' ', '+', ' ', '(', '2', ' ', '*', ' ', 'y', ')'])) ∧
      get_expr_src false
        (['f'] ++ '(' ::
          ['x', ' ', '+', ' ', '(', '2', ' ', '*', ' ', 'y', ')'] ++ ')' :: [])
        (.Call ⟨1, 0, 1, 14⟩ (.Name ⟨1, 0, 1, 1⟩ "f") [c6aarg] []) =
      some (pstrip (dedent
        ['x', ' ', '+', ' ', '(', '2', ' ', '*', ' ', 'y', ')']))) ∧
    (get_ref_src true ([] ++ ['x'] ++ [' ', '+', ' ', '1'])
        (.Name ⟨1, 0, 1, 1⟩ "x") = some ['x'] ∧
      get_ref_src false ([] ++ ['x'] ++ [' ', '+', ' ', '1'])
        (.Name ⟨1, 0, 1, 1⟩ "x") = some ['x']) ∧
    (get_ref_src true
        ([] ++ List.intercalate ['.'] [['a'], ['b', 'b'], ['c']] ++
          [' ', '+', ' ', '1'])
        (.Attribute ⟨1, 0, 1, 6⟩ c6cvalue "c") =
      some (List.intercalate ['.'] [['a'], ['b', 'b'], ['c']]) ∧
      get_ref_src false
        ([] ++ List.intercalate ['.'] [['a'], ['b', 'b'], ['c']] ++
          [' ', '+', ' ', '1'])
        (.Attribute ⟨1, 0, 1, 6⟩ c6cvalue "c") =
      some (List.intercalate ['.'] [['a'], ['b', 'b'], ['c']])) ∧
    (get_ref_src true ([] ++ (['m'] ++ '[' :: ['i', 'd', 'x'] ++ [']']) ++ [])
        (.Subscript ⟨1, 0, 1, 6⟩ (.Name ⟨1, 0, 1, 1⟩ "m")
          (.IndexNode ⟨1, 2, 1, 5⟩ (.Name ⟨1, 2, 1, 5⟩ "idx"))) =
      some (['m'] ++ '[' :: ['i', 'd', 'x'] ++ [']']) ∧
      get_ref_src false ([] ++ (['m'] ++ '[' :: ['i', 'd', 'x'] ++ [']']) ++ [])
        (.Subscript ⟨1, 0, 1, 6⟩ (.Name ⟨1, 0, 1, 1⟩ "m")
          (.IndexNode ⟨1, 2, 1, 5⟩ (.Name ⟨1, 2, 1, 5⟩ "idx"))) =
      some (['m'] ++ '[' :: ['i', 'd', 'x'] ++ [']'])) := by
  refine ⟨?_, ?_, ?_, ?_⟩
  · exact claim_C6.1 ['f']
      ['x', ' ', '+', ' ', '(', '2', ' ', '*', ' ', 'y', ')'] [] 1 14
      (.Name ⟨1, 0, 1, 1⟩ "f") c6aarg [c6aarg] [] (by decide) (by decide)
      (by decide) (by decide) (by decide) (by decide) (by decide) rfl rfl
  · exact claim_C6.2.1 [] ['x'] [' ', '+', ' ', '1'] "x" (by decide)
      (by decide) (by decide) (by decide) (by decide)
  · exact claim_C6.2.2.1 [] [' ', '+', ' ', '1'] [['a'], ['b', 'b'], ['c']]
      ['c'] c6cvalue "c" (by decide) (by decide) (by decide) (by decide)
      (by decide) (by decide) (by decide) rfl
  · exact claim_C6.2.2.2 [] ['m'] ['i', 'd', 'x'] []
      (.Name ⟨1, 0, 1, 1⟩ "m") (.Name ⟨1, 2, 1, 5⟩ "idx") ⟨1, 2, 1, 5⟩ 1 5
      (by decide) (by decide) (by decide) (by decide) (by decide) (by decide)
      rfl

end Optimism
